import Mathlib

/-!
Verification of the xcdat compressed string dictionary core
(`src/include/xcdat/Trie.hpp`), a double-array trie with XOR-linked
BASE/CHECK addressing, a terminal bit vector with rank/select giving the
node-id / key-id bijection, and two suffix ("tail") storage modes.

The backends (`DacBc`/`FastDacBc`, `BitVector`, `Vector`) are external
collaborators of the repository that are not part of the given source; they
are modelled through the access contract the spec states for them: plain
lists with default-valued random access, and rank/select defined directly
over lists of booleans.  Machine integers (`id_type` = uint32) are modelled
as `Nat`; `ID_MAX` is 2^32 - 1.  XOR on node ids is `Nat.xor`, which agrees
with the 32-bit XOR because all stored values are below 2^32.

Out-of-bounds reads of the C++ code (which are undefined behaviour there)
are modelled by the lists' default values, except where a claim is about
the out-of-bounds access itself, in which case the read positions are made
explicit (see the prefix-iterator embedding below).
-/

namespace Xcdat

set_option synthInstance.maxSize 2000

/-- `ID_MAX` of the source, `std::numeric_limits<uint32_t>::max()`. -/
def NOT_FOUND : Nat := 2 ^ 32 - 1

/-- The `Trie<Fast>` data, with the backend components modelled as lists per
the spec's backend contracts (the `Fast` parameter only selects the packed
encoding of BASE/CHECK, which is behind the contract).  Field order follows
the serialization order of `Trie::write`. -/
structure Trie where
  base : List Nat
  check : List Nat
  leafs : List Bool
  links : List Nat
  terminal : List Bool
  tail : List Nat
  boundary : List Bool
  alphabet : List Nat
  table : List Nat
  num_keys : Nat
  max_length : Nat
  bin_mode : Bool
deriving Repr, DecidableEq

/-- `bc_.base(n)`. -/
def baseAt (t : Trie) (n : Nat) : Nat := t.base.getD n 0

/-- `bc_.check(n)`; out-of-range slots can never validate as a child, which
is modelled by the default `NOT_FOUND`. -/
def checkAt (t : Trie) (n : Nat) : Nat := t.check.getD n NOT_FOUND

/-- `bc_.is_leaf(n)`. -/
def leafAt (t : Trie) (n : Nat) : Bool := t.leafs.getD n false

/-- `bc_.link(n)`. -/
def linkAt (t : Trie) (n : Nat) : Nat := t.links.getD n 0

/-- `terminal_flags_[n]`. -/
def terminalAt (t : Trie) (n : Nat) : Bool := t.terminal.getD n false

/-- `tail_[p]` (bytes as `Nat`). -/
def tailAt (t : Trie) (p : Nat) : Nat := t.tail.getD p 0

/-- `boundary_flags_[p]`. -/
def boundaryAt (t : Trie) (p : Nat) : Bool := t.boundary.getD p false

/-- `table_[i]` (the 512-entry code table, zero-initialized in the source). -/
def tableAt (t : Trie) (i : Nat) : Nat := t.table.getD i 0

/-- `code_(c)`: `table_[static_cast<uint8_t>(c)]`. -/
def code (t : Trie) (b : Nat) : Nat := tableAt t b

/-- `edge_(node_id, child_id)`: `table_[(bc_.base(node_id) ^ child_id) + 256]`. -/
def edge (t : Trie) (p n : Nat) : Nat := tableAt t ((baseAt t p ^^^ n) + 256)

/-- `BitVector::rank(n)`: number of set bits at positions `< n`. -/
def rankL (l : List Bool) (n : Nat) : Nat := (l.take n).count true

/-- `BitVector::select(k)`: position of the `k`-th (0-indexed) set bit. -/
def selectL : List Bool → Nat → Nat
  | [], _ => 0
  | b :: bs, k =>
    if b then
      match k with
      | 0 => 0
      | k + 1 => selectL bs k + 1
    else selectL bs k + 1

/-- `to_key_id_(n)`: `terminal_flags_.rank(n)`. -/
def toKeyId (t : Trie) (n : Nat) : Nat := rankL t.terminal n

/-- `to_node_id_(id)`: `terminal_flags_.select(id)`. -/
def toNodeId (t : Trie) (id : Nat) : Nat := selectL t.terminal id

/-- The binary-mode loop of `match_suffix_` (source lines 322-333), driven
by a step counter: compare one input byte and one tail byte per step; a set
boundary flag ends the suffix, succeeding iff the input ends there too.
The loop body runs once per step and continues only while `pos + 1 < len`,
so `len - pos` steps always suffice; with `pos ≥ len` every path of the
body returns `false`, which the `0` case returns directly. -/
def matchBinFromF (t : Trie) (kb : Nat → Nat) (len : Nat) : Nat → Nat → Nat → Bool
  | 0, _, _ => false
  | fuel + 1, pos, tp =>
    if kb pos ≠ tailAt t tp then false
    else if boundaryAt t tp then pos + 1 == len
    else if pos + 1 < len then matchBinFromF t kb len fuel (pos + 1) (tp + 1)
    else false

/-- The text-mode loop of `match_suffix_` (source lines 335-342), driven by
a step counter: fail on a tail NUL or byte mismatch; on input exhaustion
succeed iff the next tail byte is NUL.  With `pos ≥ len` the do-while body
runs exactly once, which is the `0` case. -/
def matchTextFromF (t : Trie) (kb : Nat → Nat) (len : Nat) : Nat → Nat → Nat → Bool
  | 0, pos, tp =>
    if tailAt t tp = 0 ∨ kb pos ≠ tailAt t tp then false else tailAt t (tp + 1) == 0
  | fuel + 1, pos, tp =>
    if tailAt t tp = 0 ∨ kb pos ≠ tailAt t tp then false
    else if pos + 1 < len then matchTextFromF t kb len fuel (pos + 1) (tp + 1)
    else tailAt t (tp + 1) == 0

/-- `match_suffix_(key, pos, tail_pos)`.  The input is a byte source `kb`
with declared length `len`; the source's `assert(pos <= key.length())` is
not enforced, matching release semantics (the do-while loops run their body
once even when entered with `pos ≥ len`). -/
def matchSuffixF (t : Trie) (kb : Nat → Nat) (len pos tp : Nat) : Bool :=
  if pos = len then tp == 0
  else if t.bin_mode then matchBinFromF t kb len (len - pos) pos tp
  else matchTextFromF t kb len (len - pos) pos tp

/-- The text-mode loop of `extract_suffix_` (source lines 354-357), driven
by a step counter: copy tail bytes until a NUL.  Each copied byte is
nonzero, hence strictly inside the tail buffer, so `t.tail.length - p`
steps suffice; past the end every byte reads as 0 and the loop stops. -/
def decodeTextF (t : Trie) : Nat → Nat → List Nat
  | 0, _ => []
  | fuel + 1, p =>
    if tailAt t p = 0 then [] else tailAt t p :: decodeTextF t fuel (p + 1)

/-- The text-mode loop of `extract_suffix_` starting at position `p`. -/
def decodeText (t : Trie) (p : Nat) : List Nat := decodeTextF t (t.tail.length - p) p

/-- The binary-mode loop of `extract_suffix_` (source lines 349-351),
driven by a step counter: copy tail bytes up to and including the first
boundary-flagged one.  Running past the end of the boundary vector is
undefined behaviour in the source; it is modelled as stopping there. -/
def decodeBinF (t : Trie) : Nat → Nat → List Nat
  | 0, p => [tailAt t p]
  | fuel + 1, p =>
    if boundaryAt t p ∨ t.boundary.length ≤ p then [tailAt t p]
    else tailAt t p :: decodeBinF t fuel (p + 1)

/-- The binary-mode loop of `extract_suffix_` starting at position `p`. -/
def decodeBin (t : Trie) (p : Nat) : List Nat := decodeBinF t (t.boundary.length - p) p

/-- `extract_suffix_(tail_pos, dec)` as the list of bytes appended to `dec`. -/
def extractSuffix (t : Trie) (p : Nat) : List Nat :=
  if t.bin_mode then (if p ≠ 0 then decodeBin t p else []) else decodeText t p

/-- The inline binary-mode tail-decoding loop of `access` (source lines
92-94), `do { dec += tail_[p]; } while (!boundary_flags_[p++])`, driven by
a step counter (same out-of-bounds convention as `decodeBinF`). -/
def accInlineBinF (t : Trie) : Nat → Nat → List Nat
  | 0, p => [tailAt t p]
  | fuel + 1, p =>
    if boundaryAt t p ∨ t.boundary.length ≤ p then [tailAt t p]
    else tailAt t p :: accInlineBinF t fuel (p + 1)

/-- The inline binary-mode tail-decoding loop of `access` from position `p`. -/
def accInlineBin (t : Trie) (p : Nat) : List Nat := accInlineBinF t (t.boundary.length - p) p

/-- The inline text-mode tail-decoding loop of `access` (source lines
96-98), `do { dec += tail_[p++]; } while (tail_[p])`: the byte at `p` is
appended before any test, then bytes continue while nonzero.  Each
continuation byte is nonzero, hence strictly inside the tail buffer, so
`t.tail.length - p` steps suffice. -/
def accInlineTextF (t : Trie) : Nat → Nat → List Nat
  | 0, p => [tailAt t p]
  | fuel + 1, p =>
    tailAt t p :: (if tailAt t (p + 1) = 0 then [] else accInlineTextF t fuel (p + 1))

/-- The inline text-mode tail-decoding loop of `access` from position `p`. -/
def accInlineText (t : Trie) (p : Nat) : List Nat := accInlineTextF t (t.tail.length - p) p

/-- The suffix part appended by `access` (source lines 90-100). -/
def accessSuffix (t : Trie) (tp : Nat) : List Nat :=
  if t.bin_mode then accInlineBin t tp else accInlineText t tp

/-- The upward walk of `access` (source lines 82-86): follow `check` to the
root, collecting `edge_(parent, node)` bytes (in reverse key order).  The
C++ loop terminates because a well-formed trie is a tree; here the walk
carries fuel, and fuel `num_nodes` is shown sufficient for well-formed
tries. -/
def upWalk (t : Trie) : Nat → Nat → List Nat
  | 0, _ => []
  | fuel + 1, node =>
    if node = 0 then [] else edge t (checkAt t node) node :: upWalk t fuel (checkAt t node)

/-- The byte string of the trie path from the root to `node` (the reversed
upward walk of `access`). -/
def pathOf (t : Trie) (node : Nat) : List Nat := (upWalk t t.check.length node).reverse

/-- `Trie::access(id)` (source lines 71-103). -/
def access (t : Trie) (id : Nat) : List Nat :=
  if t.num_keys ≤ id then []
  else
    let node := toNodeId t id
    let tp := if leafAt t node then linkAt t node else NOT_FOUND
    pathOf t node ++ (if tp ≠ 0 ∧ tp ≠ NOT_FOUND then accessSuffix t tp else [])

/-- Byte source of a concrete key list (reads past the end give 0; `lookup`
never reads past the end). -/
def kbOf (key : List Nat) : Nat → Nat := fun i => key.getD i 0

/-- The main loop of `Trie::lookup` (source lines 49-67), driven by a step
counter: descend while the node is not a leaf, consuming one input byte per
transition; on a leaf, match the stored suffix.  The loop consumes one
input byte per iteration and stops when `pos` reaches the key length, so
`key.length - pos` steps suffice; the `0` case is the `pos == key.length()`
exit of the source. -/
def lookupGoF (t : Trie) (key : List Nat) : Nat → Nat → Nat → Nat
  | 0, pos, node =>
    if leafAt t node then
      if matchSuffixF t (kbOf key) key.length pos (linkAt t node) then toKeyId t node
      else NOT_FOUND
    else if terminalAt t node then toKeyId t node
    else NOT_FOUND
  | fuel + 1, pos, node =>
    if leafAt t node then
      if matchSuffixF t (kbOf key) key.length pos (linkAt t node) then toKeyId t node
      else NOT_FOUND
    else
      let child := baseAt t node ^^^ code t (kbOf key pos)
      if checkAt t child = node then lookupGoF t key fuel (pos + 1) child else NOT_FOUND

/-- The main loop of `Trie::lookup` from input position `pos` at `node`. -/
def lookupGo (t : Trie) (key : List Nat) (pos node : Nat) : Nat :=
  lookupGoF t key (key.length - pos) pos node

/-- `Trie::lookup(key)` (source lines 45-68). -/
def lookup (t : Trie) (key : List Nat) : Nat := lookupGo t key 0 0

/-- The list of keys registered in the dictionary: the decodings of the ids
`0 .. num_keys - 1`. -/
def keysOf (t : Trie) : List (List Nat) := (List.range t.num_keys).map (access t)

/-! ### PrefixIterator -/

/-- The mutable cursor state of `Trie::PrefixIterator`. -/
structure PrefixSt where
  pos : Nat
  node : Nat
  idv : Nat
  beginFl : Bool
  endFl : Bool
deriving Repr, DecidableEq

/-- The fresh cursor made by `make_prefix_iterator`. -/
def PrefixSt.init : PrefixSt := ⟨0, 0, 0, true, false⟩

/-- The walking loop of `next_prefix_` (source lines 374-386), driven by a
step counter (`none` on exhausted fuel; the source loop is bounded only by
the trie being a tree).  The input is a byte source `kb` of declared length
`len`; the loop reads `key_[pos_++]` with no bounds test, so reads at
indices `≥ len` are possible — the third result component records whether
such an out-of-bounds read happened during the call. -/
def prefixLoop (t : Trie) (kb : Nat → Nat) (len : Nat) :
    Nat → Nat → Nat → Bool → Option (Bool × PrefixSt × Bool)
  | 0, _, _, _ => none
  | fuel + 1, pos, node, oob =>
    if leafAt t node then
      if matchSuffixF t kb len pos (linkAt t node) then
        some (true, ⟨len, node, toKeyId t node, false, true⟩, oob)
      else
        some (false, ⟨pos, node, NOT_FOUND, false, true⟩, oob)
    else
      let oob2 := oob || decide (len ≤ pos)
      let child := baseAt t node ^^^ code t (kb pos)
      if checkAt t child = node then
        if !leafAt t child && terminalAt t child then
          some (true, ⟨pos + 1, child, toKeyId t child, false, false⟩, oob2)
        else prefixLoop t kb len fuel (pos + 1) child oob2
      else some (false, ⟨pos + 1, node, NOT_FOUND, false, true⟩, oob2)

/-- `next_prefix_` (source lines 361-399): one `next()` call on a
PrefixIterator over the fixed input `kb`/`len`. -/
def nextPrefix (t : Trie) (kb : Nat → Nat) (len fuel : Nat) (st : PrefixSt) :
    Option (Bool × PrefixSt × Bool) :=
  if st.endFl then some (false, st, false)
  else if st.beginFl then
    if terminalAt t st.node then
      some (true, ⟨st.pos, st.node, toKeyId t st.node, false, false⟩, false)
    else prefixLoop t kb len fuel st.pos st.node false
  else prefixLoop t kb len fuel st.pos st.node false

/-- Drive a PrefixIterator to exhaustion, collecting the `(key(), id())`
pairs of the hits; `key()` is the first `pos_` bytes of the input view. -/
def runPrefixF (t : Trie) (kb : Nat → Nat) (len : Nat) : Nat → PrefixSt → Option (List (List Nat × Nat))
  | 0, _ => none
  | fuel + 1, st =>
    match nextPrefix t kb len fuel st with
    | none => none
    | some (false, _, _) => some []
    | some (true, st', _) =>
      match runPrefixF t kb len fuel st' with
      | none => none
      | some l => some (((List.range st'.pos).map kb, st'.idv) :: l)

/-! ### PredictiveIterator -/

/-- The mutable cursor state of `Trie::PredictiveIterator`; the stack frames
are `(depth, edge byte, node)` triples with the head of the list as the top
of the stack. -/
structure PredSt where
  beginFl : Bool
  endFl : Bool
  stack : List (Nat × Nat × Nat)
  buf : List Nat
  idv : Nat
deriving Repr, DecidableEq

/-- The fresh cursor made by `make_predictive_iterator`. -/
def PredSt.init : PredSt := ⟨true, false, [], [], 0⟩

/-- `std::string::resize(n)`: truncate or pad with 0. -/
def resizeL (l : List Nat) (n : Nat) : List Nat :=
  if n ≤ l.length then l.take n else l ++ List.replicate (n - l.length) 0

/-- `buf_.resize(depth); buf_.back() = c` of a popped frame (skipped for
depth 0, source lines 475-478). -/
def bufAdj (buf : List Nat) (d c : Nat) : List Nat :=
  if 0 < d then (resizeL buf d).set (d - 1) c else buf

/-- The child-pushing loop of `next_predictive_` (source lines 489-497):
iterate the alphabet in descending order, pushing a frame for each valid
child, so that popping visits children in ascending byte order. -/
def pushChildren (t : Trie) (node d : Nat) (stack : List (Nat × Nat × Nat)) :
    List (Nat × Nat × Nat) :=
  t.alphabet.reverse.foldl
    (fun acc b =>
      let child := baseAt t node ^^^ code t b
      if checkAt t child = node then (d + 1, b, child) :: acc else acc)
    stack

/-- The stack loop of `next_predictive_` (source lines 469-503), driven by
a step counter (`none` on exhausted fuel). -/
def predLoop (t : Trie) : Nat → List (Nat × Nat × Nat) → List Nat → Nat → Option (Bool × PredSt)
  | 0, _, _, _ => none
  | fuel + 1, stack, buf, idv =>
    match stack with
    | [] => some (false, ⟨false, true, [], buf, idv⟩)
    | (d, c, node) :: rest =>
      let buf2 := bufAdj buf d c
      if leafAt t node then
        some (true, ⟨false, false, rest, buf2 ++ extractSuffix t (linkAt t node), toKeyId t node⟩)
      else
        let stack2 := pushChildren t node d rest
        if terminalAt t node then
          some (true, ⟨false, false, stack2, buf2, toKeyId t node⟩)
        else predLoop t fuel stack2 buf2 idv

/-- Result of the mid-input suffix-matching loops of `next_predictive_`:
failure, an immediate hit (suffix exhausted exactly at the input's end), or
a hit that still extracts the rest of the suffix from the given tail
position. -/
inductive PMRes where
  | fail : List Nat → PMRes
  | hitNow : List Nat → PMRes
  | hitExt : List Nat → Nat → PMRes
deriving Repr, DecidableEq

/-- The binary-mode mid-input matching loop of `next_predictive_` (source
lines 421-435), driven by a step counter (entered only with `pos < len`, so
`len - pos` steps suffice and the `0` case is unreachable). -/
def predBinMatchF (t : Trie) (kb : Nat → Nat) (len : Nat) :
    Nat → Nat → Nat → List Nat → PMRes
  | 0, _, _, buf => .fail buf
  | fuel + 1, pos, tp, buf =>
    if kb pos ≠ tailAt t tp then .fail buf
    else
      let buf2 := buf ++ [kb pos]
      if boundaryAt t tp then
        if pos + 1 = len then .hitNow buf2 else .fail buf2
      else if pos + 1 < len then predBinMatchF t kb len fuel (pos + 1) (tp + 1) buf2
      else .hitExt buf2 (tp + 1)

/-- The text-mode mid-input matching loop of `next_predictive_` (source
lines 437-443), driven by a step counter (entered only with `pos < len`). -/
def predTextMatchF (t : Trie) (kb : Nat → Nat) (len : Nat) :
    Nat → Nat → Nat → List Nat → PMRes
  | 0, _, _, buf => .fail buf
  | fuel + 1, pos, tp, buf =>
    if kb pos ≠ tailAt t tp ∨ tailAt t tp = 0 then .fail buf
    else
      let buf2 := buf ++ [kb pos]
      if pos + 1 < len then predTextMatchF t kb len fuel (pos + 1) (tp + 1) buf2
      else .hitExt buf2 (tp + 1)

/-- Result of the descent phase of `next_predictive_`: a failed traversal,
a single hit ending the iteration, or the node seeding the stack phase. -/
inductive DescRes where
  | fail : List Nat → DescRes
  | hit : List Nat → Nat → DescRes
  | seed : List Nat → Nat → DescRes
deriving Repr, DecidableEq

/-- The descent phase of `next_predictive_` (source lines 409-460), driven
by a step counter equal to the remaining input length (the `for` loop runs
while `pos < len`). -/
def predDescendF (t : Trie) (kb : Nat → Nat) (len : Nat) : Nat → Nat → Nat → List Nat → DescRes
  | 0, _, node, buf => .seed buf node
  | fuel + 1, pos, node, buf =>
    if leafAt t node then
      let tp := linkAt t node
      if tp = 0 then .fail buf
      else
        match (if t.bin_mode then predBinMatchF t kb len (len - pos) pos tp buf
               else predTextMatchF t kb len (len - pos) pos tp buf) with
        | .fail b => .fail b
        | .hitNow b => .hit b (toKeyId t node)
        | .hitExt b tp2 => .hit (b ++ extractSuffix t tp2) (toKeyId t node)
    else
      let child := baseAt t node ^^^ code t (kb pos)
      if checkAt t child = node then predDescendF t kb len fuel (pos + 1) child (buf ++ [kb pos])
      else .fail buf

/-- The seed frame pushed after a completed descent (source lines 462-466):
depth is the consumed length, the edge byte is the last byte of the buffer
(or NUL for an empty buffer). -/
def seedFrame (buf : List Nat) (node : Nat) : Nat × Nat × Nat :=
  (buf.length, buf.getLastD 0, node)

/-- `next_predictive_` (source lines 401-507): one `next()` call on a
PredictiveIterator over the fixed input `kb`/`len`. -/
def nextPredictive (t : Trie) (kb : Nat → Nat) (len fuel : Nat) (st : PredSt) :
    Option (Bool × PredSt) :=
  if st.endFl then some (false, st)
  else if st.beginFl then
    match predDescendF t kb len len 0 0 [] with
    | .fail buf => some (false, ⟨false, true, st.stack, buf, st.idv⟩)
    | .hit buf idv => some (true, ⟨false, true, st.stack, buf, idv⟩)
    | .seed buf node => predLoop t fuel [seedFrame buf node] buf st.idv
  else predLoop t fuel st.stack st.buf st.idv

/-- Drive a PredictiveIterator to exhaustion, collecting the `(key(), id())`
pairs of the hits; `key()` is the whole output buffer. -/
def runPredF (t : Trie) (kb : Nat → Nat) (len : Nat) : Nat → PredSt → Option (List (List Nat × Nat))
  | 0, _ => none
  | fuel + 1, st =>
    match nextPredictive t kb len fuel st with
    | none => none
    | some (false, _) => some []
    | some (true, st') =>
      match runPredF t kb len fuel st' with
      | none => none
      | some l => some ((st'.buf, st'.idv) :: l)

/-! ### Serialization -/

/-- One serialized component of the stream format.  Each backend serializes
itself byte-exactly (external contract), so the stream is modelled at
component granularity. -/
inductive SComp where
  | bc : List Nat → List Nat → List Bool → List Nat → SComp
  | bits : List Bool → SComp
  | bytes : List Nat → SComp
  | tbl : List Nat → SComp
  | natv : Nat → SComp
  | boolv : Bool → SComp
deriving Repr, DecidableEq

/-- `Trie::write` (source lines 267-277): the components in their fixed
serialization order. -/
def writeTrie (t : Trie) : List SComp :=
  [.bc t.base t.check t.leafs t.links, .bits t.terminal, .bytes t.tail,
   .bits t.boundary, .bytes t.alphabet, .tbl t.table,
   .natv t.num_keys, .natv t.max_length, .boolv t.bin_mode]

/-- `Trie::Trie(std::istream&)` (source lines 28-38): read the components
back in the same fixed order, failing on any other stream shape. -/
def readTrie : List SComp → Option (Trie × List SComp)
  | .bc b c lf lk :: .bits tf :: .bytes tl :: .bits bf :: .bytes al :: .tbl tb ::
      .natv nk :: .natv ml :: .boolv bm :: rest =>
    some (⟨b, c, lf, lk, tf, tl, bf, al, tb, nk, ml, bm⟩, rest)
  | _ => none

/-! ### Well-formedness -/

/-- `used.getD n false`: whether slot `n` holds a node of the original trie
(as opposed to a free slot of the double array). -/
def usedAt (u : List Bool) (n : Nat) : Bool := u.getD n false

/-- `d.getD n 0`: the depth certificate of node `n`. -/
def dAt (d : List Nat) (n : Nat) : Nat := d.getD n 0

/-- Modelled from the spec: the structural invariants that the external
`TrieBuilder` (declared a friend in the source but not part of `src/`)
establishes for every dictionary it hands to `Trie`, per the spec's data
model (root at slot 0, `check` parent links forming a tree certified by the
depth list `d`, the alphabet/code-table bijection, leaf links pointing at
well-delimited tail suffixes, free slots never validating as children, and
`num_keys` equal to the number of terminal nodes).  `u` marks the used
slots and `d` certifies well-founded parent links. -/
structure WFp (t : Trie) (d : List Nat) (u : List Bool) : Prop where
  base_len : t.base.length = t.check.length
  leafs_len : t.leafs.length = t.check.length
  links_len : t.links.length = t.check.length
  term_len : t.terminal.length = t.check.length
  d_len : d.length = t.check.length
  u_len : u.length = t.check.length
  n_pos : 0 < t.check.length
  n_lt : t.check.length < NOT_FOUND
  root_used : usedAt u 0 = true
  root_not_leaf : leafAt t 0 = false
  root_check : checkAt t 0 = NOT_FOUND
  nk : t.num_keys = t.terminal.count true
  tail0 : tailAt t 0 = 0
  tail_lt : t.tail.length < NOT_FOUND
  bnd_len : t.bin_mode = true → t.boundary.length = t.tail.length
  alpha_lt : ∀ b ∈ t.alphabet, b < 256
  alpha_sorted : t.alphabet.Pairwise (· < ·)
  tbl : ∀ i, i < t.alphabet.length →
    tableAt t (t.alphabet.getD i 0) = i ∧ tableAt t (i + 256) = t.alphabet.getD i 0
  parent : ∀ n, n < t.check.length → usedAt u n = true → 0 < n →
    checkAt t n < t.check.length ∧ usedAt u (checkAt t n) = true ∧
    dAt d (checkAt t n) < dAt d n ∧ leafAt t (checkAt t n) = false ∧
    baseAt t (checkAt t n) ^^^ n < t.alphabet.length
  free_check : ∀ n, n < t.check.length → usedAt u n = false → usedAt u (checkAt t n) = false
  term_used : ∀ n, n < t.check.length → terminalAt t n = true → usedAt u n = true
  leaf_term : ∀ n, n < t.check.length → usedAt u n = true → leafAt t n = true →
    terminalAt t n = true
  d_lt : ∀ n, n < t.check.length → dAt d n < t.check.length
  leaf_link : ∀ n, n < t.check.length → usedAt u n = true → leafAt t n = true →
    linkAt t n ≠ 0 →
    linkAt t n < t.tail.length ∧
    (t.bin_mode = false → tailAt t (linkAt t n) ≠ 0) ∧
    (t.bin_mode = true → ∃ e, e < t.boundary.length ∧ linkAt t n ≤ e ∧ boundaryAt t e = true)

/-- Modelled from the spec: a well-formed `Trie` is one reachable from the
external builder, i.e. one admitting used-slot marks and a depth
certificate satisfying `WFp`. -/
def WellFormed (t : Trie) : Prop := ∃ d u, WFp t d u

/-! ### Specification sequences for the predictive traversal -/

/-- Strict lexicographic byte order on keys. -/
def lexLt (a b : List Nat) : Prop := List.Lex (· < ·) a b

/-- The valid children of a node, as `(edge byte, child id)` pairs in
alphabet (= ascending byte) order. -/
def childrenOf (t : Trie) (node : Nat) : List (Nat × Nat) :=
  t.alphabet.filterMap fun b =>
    let child := baseAt t node ^^^ code t b
    if checkAt t child = node then some (b, child) else none

/-- The `(key, id)` pairs of the subtree below `node` (whose path from the
root spells `path`), in the order the predictive traversal must produce:
a leaf yields its completed key; otherwise the node's own key (if terminal)
precedes the subtrees of its children in ascending edge-byte order. -/
def subtreeSeqF (t : Trie) : Nat → Nat → List Nat → List (List Nat × Nat)
  | 0, _, _ => []
  | fuel + 1, node, path =>
    if leafAt t node then [(path ++ extractSuffix t (linkAt t node), toKeyId t node)]
    else
      (if terminalAt t node then [(path, toKeyId t node)] else []) ++
      (childrenOf t node).flatMap fun bc => subtreeSeqF t fuel bc.2 (path ++ [bc.1])

/-- The `(key, id)` sequence a frame's node still owes: its subtree
sequence, rooted at the frame's node with its root path, with enough fuel
for any well-formed trie. -/
def frameSpec (t : Trie) (f : Nat × Nat × Nat) : List (List Nat × Nat) :=
  subtreeSeqF t t.check.length f.2.2 (pathOf t f.2.2)

/-- The `(key, id)` sequence a whole stack still owes (top first). -/
def stackSpec (t : Trie) (stack : List (Nat × Nat × Nat)) : List (List Nat × Nat) :=
  stack.flatMap (frameSpec t)

/-- The number of nodes in the subtree below `node` (with fuel, like
`subtreeSeqF`); each stack-loop iteration of `next_predictive_` removes one
node of the pending subtrees, so this bounds the loop. -/
def subtreeSizeF (t : Trie) : Nat → Nat → Nat
  | 0, _ => 1
  | fuel + 1, node =>
    if leafAt t node then 1
    else 1 + ((childrenOf t node).map fun bc => subtreeSizeF t fuel bc.2).sum

/-- Total pending size of a stack. -/
def stackWeight (t : Trie) (stack : List (Nat × Nat × Nat)) : Nat :=
  (stack.map fun f => subtreeSizeF t t.check.length f.2.2).sum

/-- A well-formed stack frame `(depth, c, node)`: a used node at positive
depth whose recorded depth is its path length and whose recorded byte is
the last byte of its path. -/
def FrameOK (t : Trie) (u : List Bool) (f : Nat × Nat × Nat) : Prop :=
  0 < f.1 ∧ f.2.2 < t.check.length ∧ usedAt u f.2.2 = true ∧
  f.1 = (pathOf t f.2.2).length ∧
  pathOf t f.2.2 = (pathOf t f.2.2).take (f.1 - 1) ++ [f.2.1]

/-- The invariant tying a frame stack to the buffer (for the head) and to
the path of the frame above (for the rest): each frame is well formed and
the first `depth - 1` bytes of its path are still present in what the
buffer will hold when it is popped. -/
def StackChain (t : Trie) (u : List Bool) :
    List (Nat × Nat × Nat) → List Nat → Prop
  | [], _ => True
  | f :: rest, prev =>
      FrameOK t u f ∧ (pathOf t f.2.2).take (f.1 - 1) <+: prev ∧
      StackChain t u rest (pathOf t f.2.2)

/-- The key owned by a terminal node: its root path, extended by its stored
tail suffix when the node is a leaf (the leaf's `link` names the suffix). -/
def keyOf (t : Trie) (nid : Nat) : List Nat :=
  pathOf t nid ++ (if leafAt t nid then extractSuffix t (linkAt t nid) else [])

/-! ### Concrete dictionaries -/

/-- The dictionary for the key set `{"a", "abc"}` (text mode): node 1 is
the terminal non-leaf for `"a"`, node 2 the leaf for `"abc"` with tail
suffix `"c"` at position 1. -/
def trieAabc : Trie :=
  { base := [1, 3, 0]
    check := [NOT_FOUND, 0, 1]
    leafs := [false, false, true]
    links := [0, 0, 1]
    terminal := [false, true, true]
    tail := [0, 99, 0]
    boundary := []
    alphabet := [97, 98, 99]
    table := ((((List.replicate 512 0).set 98 1).set 99 2).set 256 97 |>.set 257 98).set 258 99
    num_keys := 2
    max_length := 3
    bin_mode := false }

/-- The dictionary for the key set `{"a"}` (text mode): node 1 is the leaf
for `"a"` with an empty suffix (link 0).  Bytes outside the alphabet map to
code 0 through the zero-initialized table, the same code as `'a'`. -/
def trieA : Trie :=
  { base := [1, 0]
    check := [NOT_FOUND, 0]
    leafs := [false, true]
    links := [0, 0]
    terminal := [false, true]
    tail := [0]
    boundary := []
    alphabet := [97]
    table := (List.replicate 512 0).set 256 97
    num_keys := 1
    max_length := 1
    bin_mode := false }

/-- Binary-mode tail content (reserved NUL at position 0 flagged non-final,
a one-byte suffix `5` at position 1) on which `match_suffix_` at
`tail_pos == 0` succeeds with unexhausted input. -/
def cexBinTail : Trie :=
  { base := []
    check := []
    leafs := []
    links := []
    terminal := []
    tail := [0, 5]
    boundary := [false, true]
    alphabet := []
    table := []
    num_keys := 0
    max_length := 0
    bin_mode := true }

/-- Text-mode tail content with a NUL byte at position 1, on which the
inline tail-decoding loop of `access` and `extract_suffix_` disagree. -/
def cexTextTail : Trie :=
  { base := []
    check := []
    leafs := []
    links := []
    terminal := []
    tail := [1, 0, 5]
    boundary := []
    alphabet := []
    table := []
    num_keys := 0
    max_length := 0
    bin_mode := false }

/-! ## Theorems -/

theorem tailAt_ne_zero_lt {t : Trie} {p : Nat} (h : tailAt t p ≠ 0) :
    p < t.tail.length := by
  by_contra hle
  exact h (List.getD_eq_default _ _ (Nat.le_of_not_lt hle))

/-- C6: for every id with `id ≥ num_keys`, `access` returns the empty byte
string; being a pure function of the (immutable) trie, it raises nothing
and leaves the trie unchanged. -/
theorem c6_access_out_of_range (t : Trie) (id : Nat) (h : t.num_keys ≤ id) :
    access t id = [] := by
  simp [access, h]

theorem c6_witness : access trieAabc 5 = [] :=
  c6_access_out_of_range trieAabc 5 (by decide)

/-- C5: serializing a trie and reading the stream back reconstructs the
same dictionary (components written and read in the same fixed order), so
`lookup`, `access` and both iterators behave identically on every input. -/
theorem c5_roundtrip (t : Trie) :
    ∃ t', readTrie (writeTrie t) = some (t', []) ∧ t' = t ∧
      (∀ key, lookup t' key = lookup t key) ∧
      (∀ id, access t' id = access t id) ∧
      (∀ kb len fuel st, nextPrefix t' kb len fuel st = nextPrefix t kb len fuel st) ∧
      (∀ kb len fuel st, nextPredictive t' kb len fuel st = nextPredictive t kb len fuel st) :=
  ⟨t, rfl, rfl, fun _ => rfl, fun _ => rfl, fun _ _ _ _ => rfl, fun _ _ _ _ => rfl⟩

/-- C7 as stated is false: in binary mode, `match_suffix_` at
`tail_pos == 0` can succeed although the input is not yet exhausted
(position 0 of the shown tail holds the reserved NUL with its boundary flag
clear, followed by a real suffix, exactly as a builder lays them out). -/
theorem c7_counterexample :
    cexBinTail.bin_mode = true ∧ (0 : Nat) ≤ 2 ∧ (0 : Nat) ≠ 2 ∧
    matchSuffixF cexBinTail (kbOf [0, 5]) 2 0 0 = true := by decide

/-- C7 amended: at `tail_pos == 0`, matching always succeeds on exhausted
input, and extraction appends nothing (in binary mode by the explicit
guard, in text mode thanks to the reserved NUL at offset 0); the converse
direction — matching fails on unexhausted input — holds in text mode but
not in binary mode (see the counterexample). -/
theorem c7_amended (t : Trie) (kb : Nat → Nat) (len pos : Nat) :
    (pos = len → matchSuffixF t kb len pos 0 = true) ∧
    (t.bin_mode = false → tailAt t 0 = 0 → pos ≠ len → matchSuffixF t kb len pos 0 = false) ∧
    (t.bin_mode = true → extractSuffix t 0 = []) ∧
    (t.bin_mode = false → tailAt t 0 = 0 → extractSuffix t 0 = []) := by
  refine ⟨?_, ?_, ?_, ?_⟩
  · intro h
    simp [matchSuffixF, h]
  · intro hb h0 hne
    have hm : matchTextFromF t kb len (len - pos) pos 0 = false := by
      cases len - pos with
      | zero => simp [matchTextFromF, h0]
      | succ m => simp [matchTextFromF, h0]
    simp [matchSuffixF, hne, hb, hm]
  · intro hb
    simp [extractSuffix, hb]
  · intro hb h0
    have hd : decodeText t 0 = [] := by
      rw [decodeText]
      cases t.tail.length - 0 with
      | zero => rfl
      | succ m => simp [decodeTextF, h0]
    simp [extractSuffix, hb, hd]

theorem c7_witness :
    matchSuffixF trieAabc (kbOf []) 0 0 0 = true ∧
    matchSuffixF trieAabc (kbOf [97]) 1 0 0 = false ∧
    extractSuffix cexBinTail 0 = [] ∧
    extractSuffix trieAabc 0 = [] :=
  ⟨(c7_amended trieAabc (kbOf []) 0 0).1 rfl,
   (c7_amended trieAabc (kbOf [97]) 1 0).2.1 (by decide) (by decide) (by decide),
   (c7_amended cexBinTail (kbOf []) 0 0).2.2.1 (by decide),
   (c7_amended trieAabc (kbOf []) 0 0).2.2.2 (by decide) (by decide)⟩

theorem accInlineBinF_eq_decodeBinF (t : Trie) :
    ∀ fuel p, accInlineBinF t fuel p = decodeBinF t fuel p := by
  intro fuel
  induction fuel with
  | zero => intro p; rfl
  | succ n ih =>
    intro p
    simp only [accInlineBinF, decodeBinF]
    split
    · rfl
    · rw [ih]

theorem accInlineTextF_eq_decodeTextF (t : Trie) :
    ∀ fuel p, tailAt t p ≠ 0 → accInlineTextF t fuel p = decodeTextF t (fuel + 1) p := by
  intro fuel
  induction fuel with
  | zero =>
    intro p h
    simp [accInlineTextF, decodeTextF, h]
  | succ n ih =>
    intro p h
    by_cases h1 : tailAt t (p + 1) = 0
    · simp [accInlineTextF, decodeTextF, h, h1]
    · simp only [accInlineTextF, if_neg h1, ih (p + 1) h1]
      simp [decodeTextF, h, h1]

theorem decodeTextF_congr (t : Trie) :
    ∀ f g p, t.tail.length - p ≤ f → t.tail.length - p ≤ g →
      decodeTextF t f p = decodeTextF t g p := by
  intro f
  induction f with
  | zero =>
    intro g p hf _
    have h0 : tailAt t p = 0 := List.getD_eq_default _ _ (by omega)
    cases g with
    | zero => rfl
    | succ m => simp [decodeTextF, h0]
  | succ n ih =>
    intro g p hf hg
    cases g with
    | zero =>
      have h0 : tailAt t p = 0 := List.getD_eq_default _ _ (by omega)
      simp [decodeTextF, h0]
    | succ m =>
      simp only [decodeTextF]
      by_cases h0 : tailAt t p = 0
      · simp [h0]
      · have hlt : p < t.tail.length := tailAt_ne_zero_lt h0
        simp only [if_neg h0]
        rw [ih m (p + 1) (by omega) (by omega)]

/-- C10 as stated is false: in text mode, when the tail byte at a nonzero
position `p` is NUL, the inline tail-decoding loop of `access` appends that
NUL (and whatever follows) while `extract_suffix_(p)` appends nothing. -/
theorem c10_counterexample :
    (1 : Nat) ≠ 0 ∧ (1 : Nat) ≠ NOT_FOUND ∧
    accessSuffix cexTextTail 1 ≠ extractSuffix cexTextTail 1 := by decide

/-- C10 amended: for a tail position `p ∉ {0, NOT_FOUND}`, the bytes
appended by `access`'s inline tail-decoding loop equal those appended by
`extract_suffix_(p)` — unconditionally in binary mode, and in text mode
provided the tail byte at `p` is nonzero (i.e. `p` is a position where a
stored suffix begins). -/
theorem c10_amended (t : Trie) (p : Nat) (h0 : p ≠ 0) (_hnf : p ≠ NOT_FOUND)
    (htext : t.bin_mode = false → tailAt t p ≠ 0) :
    accessSuffix t p = extractSuffix t p := by
  cases hb : t.bin_mode with
  | false =>
    have hp : tailAt t p ≠ 0 := htext hb
    have h1 : accInlineText t p = decodeText t p := by
      rw [accInlineText, decodeText, accInlineTextF_eq_decodeTextF t _ p hp]
      exact decodeTextF_congr t _ _ p (by omega) (by omega)
    simp [accessSuffix, extractSuffix, hb, h1]
  | true =>
    have h1 : accInlineBin t p = decodeBin t p := by
      rw [accInlineBin, decodeBin, accInlineBinF_eq_decodeBinF]
    simp [accessSuffix, extractSuffix, hb, h0, h1]

theorem c10_witness : accessSuffix trieAabc 1 = extractSuffix trieAabc 1 :=
  c10_amended trieAabc 1 (by decide) (by decide) (by decide)

/-- C9: the walking loop of `next_prefix_` reads `key_[pos_++]` without any
bounds test.  On the dictionary `{"a", "abc"}` with input `"a"`, the first
`next()` yields `("a", 0)` and leaves the cursor on the non-leaf node 1
with the input fully consumed; the second `next()` then reads the input at
index 1 = length (out of bounds, recorded by the `true` in the third
component), walks wherever the bytes that happen to follow the buffer lead
(here `"bc"`), and even violates `match_suffix_`'s own
`assert(pos <= key.length())` by calling it with `pos_ = 2 > 1`. -/
theorem c9_oob_read :
    nextPrefix trieAabc (kbOf [97, 98, 99]) 1 10 ⟨1, 1, 0, false, false⟩ =
      some (true, ⟨1, 2, 1, false, true⟩, true) := by decide

/-- C3: driven to exhaustion on the dictionary `{"a", "abc"}` with input
`"a"` (over a buffer whose following bytes are `"bc"`), the PrefixIterator
emits `("a", 0)` and then — through the out-of-bounds walk of `c9_oob_read`
— a second spurious hit `("a", 1)`: the key `"a"` is emitted twice, the
second time with the id of `"abc"`, instead of the claimed single emission
of each registered prefix. -/
theorem c3_duplicate_hit :
    runPrefixF trieAabc (kbOf [97, 98, 99]) 1 10 PrefixSt.init =
      some [([97], 0), ([97], 1)] := by decide

theorem prefixLoop_false_end (t : Trie) (kb : Nat → Nat) (len : Nat) :
    ∀ fuel pos node oob st' b,
      prefixLoop t kb len fuel pos node oob = some (false, st', b) → st'.endFl = true := by
  intro fuel
  induction fuel with
  | zero =>
    intro pos node oob st' b h
    simp [prefixLoop] at h
  | succ n ih =>
    intro pos node oob st' b h
    simp only [prefixLoop] at h
    split at h
    · split at h
      · simp at h
      · simp only [Option.some.injEq, Prod.mk.injEq] at h
        obtain ⟨-, h1, -⟩ := h
        rw [← h1]
    · split at h
      · split at h
        · simp at h
        · exact ih _ _ _ _ _ h
      · simp only [Option.some.injEq, Prod.mk.injEq] at h
        obtain ⟨-, h1, -⟩ := h
        rw [← h1]

theorem predLoop_false_end (t : Trie) :
    ∀ fuel stack buf idv st',
      predLoop t fuel stack buf idv = some (false, st') → st'.endFl = true := by
  intro fuel
  induction fuel with
  | zero =>
    intro stack buf idv st' h
    simp [predLoop] at h
  | succ n ih =>
    intro stack buf idv st' h
    simp only [predLoop] at h
    match stack, h with
    | [], h =>
      simp only [Option.some.injEq, Prod.mk.injEq] at h
      obtain ⟨-, h1⟩ := h
      rw [← h1]
    | (d, c, node) :: rest, h =>
      simp only at h
      split at h
      · simp at h
      · split at h
        · simp at h
        · exact ih _ _ _ _ h

/-- C8: for both iterator kinds, once `next()` has returned `false` the
cursor is permanently exhausted: the returned state carries `end_flag_`,
and every later `next()` on that state returns `false` with the state
unchanged (and performs no further reads). -/
theorem c8_exhaustion_permanent :
    (∀ (t : Trie) (kb : Nat → Nat) (len fuel : Nat) (st : PrefixSt) st' b,
      nextPrefix t kb len fuel st = some (false, st', b) →
      st'.endFl = true ∧ ∀ fuel2, nextPrefix t kb len fuel2 st' = some (false, st', false)) ∧
    (∀ (t : Trie) (kb : Nat → Nat) (len fuel : Nat) (st : PredSt) st',
      nextPredictive t kb len fuel st = some (false, st') →
      st'.endFl = true ∧ ∀ fuel2, nextPredictive t kb len fuel2 st' = some (false, st')) := by
  constructor
  · intro t kb len fuel st st' b h
    have hend : st'.endFl = true := by
      unfold nextPrefix at h
      split at h
      · simp only [Option.some.injEq, Prod.mk.injEq] at h
        obtain ⟨-, h1, -⟩ := h
        rw [← h1]
        assumption
      · split at h
        · split at h
          · simp at h
          · exact prefixLoop_false_end t kb len _ _ _ _ _ _ h
        · exact prefixLoop_false_end t kb len _ _ _ _ _ _ h
    exact ⟨hend, fun fuel2 => by simp [nextPrefix, hend]⟩
  · intro t kb len fuel st st' h
    have hend : st'.endFl = true := by
      unfold nextPredictive at h
      split at h
      · simp only [Option.some.injEq, Prod.mk.injEq] at h
        obtain ⟨-, h1⟩ := h
        rw [← h1]
        assumption
      · split at h
        · split at h
          · simp only [Option.some.injEq, Prod.mk.injEq] at h
            obtain ⟨-, h1⟩ := h
            rw [← h1]
          · simp at h
          · exact predLoop_false_end t _ _ _ _ _ h
        · exact predLoop_false_end t _ _ _ _ _ h
    exact ⟨hend, fun fuel2 => by simp [nextPredictive, hend]⟩

theorem c8_witness :
    nextPrefix trieAabc (kbOf [98]) 1 3 ⟨1, 0, NOT_FOUND, false, true⟩ =
      some (false, ⟨1, 0, NOT_FOUND, false, true⟩, false) :=
  (c8_exhaustion_permanent.1 trieAabc (kbOf [98]) 1 5 PrefixSt.init
    ⟨1, 0, NOT_FOUND, false, true⟩ false (by decide)).2 3

/-! ### Rank / select -/

theorem rankL_succ (b : Bool) (bs : List Bool) (n : Nat) :
    rankL (b :: bs) (n + 1) = rankL bs n + (if b then 1 else 0) := by
  simp [rankL, List.count_cons]

theorem selectL_spec :
    ∀ (l : List Bool) (k : Nat), k < l.count true →
      selectL l k < l.length ∧ l.getD (selectL l k) false = true ∧ rankL l (selectL l k) = k := by
  intro l
  induction l with
  | nil => intro k hk; simp at hk
  | cons b bs ih =>
    intro k hk
    cases b with
    | true =>
      cases k with
      | zero => refine ⟨by simp [selectL], by simp [selectL], by simp [selectL, rankL]⟩
      | succ k =>
        have hk' : k < bs.count true := by
          simp [List.count_cons] at hk
          omega
        obtain ⟨h1, h2, h3⟩ := ih k hk'
        have hsel : selectL (true :: bs) (k + 1) = selectL bs k + 1 := by simp [selectL]
        refine ⟨by rw [hsel]; simp; omega, by rw [hsel]; simpa using h2, ?_⟩
        rw [hsel, rankL_succ, h3]
        simp
    | false =>
      have hk' : k < bs.count true := by simpa [List.count_cons] using hk
      obtain ⟨h1, h2, h3⟩ := ih k hk'
      have hsel : selectL (false :: bs) k = selectL bs k + 1 := by
        cases k <;> simp [selectL]
      refine ⟨by rw [hsel]; simp; omega, by rw [hsel]; simpa using h2, ?_⟩
      rw [hsel, rankL_succ, h3]
      simp

theorem selectL_rankL :
    ∀ (l : List Bool) (n : Nat), n < l.length → l.getD n false = true →
      selectL l (rankL l n) = n := by
  intro l
  induction l with
  | nil => intro n hn; simp at hn
  | cons b bs ih =>
    intro n hn hv
    cases n with
    | zero =>
      have hb : b = true := by simpa using hv
      simp [hb, selectL, rankL]
    | succ n =>
      have hv' : bs.getD n false = true := by simpa using hv
      have hn' : n < bs.length := by simpa using hn
      rw [rankL_succ]
      cases b with
      | true => simp [selectL, ih n hn' hv']
      | false => simp [selectL, ih n hn' hv']

theorem rankL_lt_count :
    ∀ (l : List Bool) (n : Nat), n < l.length → l.getD n false = true →
      rankL l n < l.count true := by
  intro l
  induction l with
  | nil => intro n hn; simp at hn
  | cons b bs ih =>
    intro n hn hv
    cases n with
    | zero =>
      have hb : b = true := by simpa using hv
      simp [rankL, hb, List.count_cons]
    | succ n =>
      have hv' : bs.getD n false = true := by simpa using hv
      have hn' : n < bs.length := by simpa using hn
      have hih := ih n hn' hv'
      cases b with
      | true =>
        have h1 : rankL (true :: bs) (n + 1) = rankL bs n + 1 := by rw [rankL_succ]; simp
        have h2 : (true :: bs).count true = bs.count true + 1 := by simp [List.count_cons]
        rw [h1, h2]
        omega
      | false =>
        have h1 : rankL (false :: bs) (n + 1) = rankL bs n := by rw [rankL_succ]; simp
        have h2 : (false :: bs).count true = bs.count true := by simp [List.count_cons]
        rw [h1, h2]
        omega

/-! ### Paths and the downward walk -/

theorem upWalk_congr (t : Trie) (d : List Nat) (u : List Bool) (hw : WFp t d u) :
    ∀ f g n, n < t.check.length → usedAt u n = true →
      dAt d n < f → dAt d n < g → upWalk t f n = upWalk t g n := by
  intro f
  induction f with
  | zero => intro g n _ _ hf; omega
  | succ f ih =>
    intro g n hn hu hf hg
    cases g with
    | zero => omega
    | succ g =>
      by_cases h0 : n = 0
      · simp [upWalk, h0]
      · have hp := hw.parent n hn hu (Nat.pos_of_ne_zero h0)
        simp only [upWalk, if_neg h0]
        rw [ih g (checkAt t n) hp.1 hp.2.1 (by omega) (by omega)]

theorem pathOf_zero (t : Trie) (d : List Nat) (u : List Bool) (hw : WFp t d u) :
    pathOf t 0 = [] := by
  have hpos := hw.n_pos
  obtain ⟨m, hN⟩ : ∃ m, t.check.length = m + 1 := ⟨t.check.length - 1, by omega⟩
  rw [pathOf, hN]
  simp [upWalk]

theorem pathOf_step (t : Trie) (d : List Nat) (u : List Bool) (hw : WFp t d u)
    (n : Nat) (hn : n < t.check.length) (hu : usedAt u n = true) (h0 : 0 < n) :
    pathOf t n = pathOf t (checkAt t n) ++ [edge t (checkAt t n) n] := by
  have hp := hw.parent n hn hu h0
  have hN2 : 2 ≤ t.check.length := by omega
  obtain ⟨m, hN⟩ : ∃ m, t.check.length = m + 1 := ⟨t.check.length - 1, by omega⟩
  have hd : dAt d (checkAt t n) < m := by
    have h1 := hw.d_lt n hn
    omega
  rw [pathOf, pathOf, hN]
  have hunfold : upWalk t (m + 1) n = edge t (checkAt t n) n :: upWalk t m (checkAt t n) := by
    simp only [upWalk, if_neg (by omega : ¬ n = 0)]
  rw [hunfold, List.reverse_cons]
  rw [upWalk_congr t d u hw m (m + 1) (checkAt t n) (by omega) hp.2.1 hd (by omega)]

theorem lookupGo_step (t : Trie) (key : List Nat) (pos node : Nat)
    (hpos : pos < key.length) (hleaf : leafAt t node = false) :
    lookupGo t key pos node =
      (if checkAt t (baseAt t node ^^^ code t (kbOf key pos)) = node
       then lookupGo t key (pos + 1) (baseAt t node ^^^ code t (kbOf key pos))
       else NOT_FOUND) := by
  rw [lookupGo, lookupGo]
  have h : key.length - pos = (key.length - (pos + 1)) + 1 := by omega
  rw [h]
  simp [lookupGoF, hleaf]

theorem lookupGo_leaf (t : Trie) (key : List Nat) (pos node : Nat)
    (hleaf : leafAt t node = true) :
    lookupGo t key pos node =
      (if matchSuffixF t (kbOf key) key.length pos (linkAt t node) then toKeyId t node
       else NOT_FOUND) := by
  rw [lookupGo]
  cases key.length - pos <;> simp [lookupGoF, hleaf]

theorem lookupGo_exhaust (t : Trie) (key : List Nat) (pos node : Nat)
    (hpos : key.length ≤ pos) (hleaf : leafAt t node = false) :
    lookupGo t key pos node =
      (if terminalAt t node then toKeyId t node else NOT_FOUND) := by
  rw [lookupGo]
  have h : key.length - pos = 0 := by omega
  rw [h]
  simp [lookupGoF, hleaf]

theorem lookupGo_from_path (t : Trie) (d : List Nat) (u : List Bool) (hw : WFp t d u) :
    ∀ k n, dAt d n ≤ k → n < t.check.length → usedAt u n = true → ∀ rest,
      lookupGo t (pathOf t n ++ rest) 0 0 =
        lookupGo t (pathOf t n ++ rest) (pathOf t n).length n := by
  intro k
  induction k with
  | zero =>
    intro n hk hn hu rest
    have h0 : n = 0 := by
      by_contra h
      have hp := hw.parent n hn hu (Nat.pos_of_ne_zero h)
      omega
    subst h0
    rw [pathOf_zero t d u hw]
    simp
  | succ k ih =>
    intro n hk hn hu rest
    by_cases h0 : n = 0
    · subst h0
      rw [pathOf_zero t d u hw]
      simp
    · have hp := hw.parent n hn hu (Nat.pos_of_ne_zero h0)
      have hstep := pathOf_step t d u hw n hn hu (Nat.pos_of_ne_zero h0)
      set p := checkAt t n with hpdef
      set b := edge t p n with hbdef
      have hihp := ih p (by omega) hp.1 hp.2.1 ([b] ++ rest)
      rw [hstep]
      have hassoc : (pathOf t p ++ [b]) ++ rest = pathOf t p ++ ([b] ++ rest) := by
        simp
      rw [hassoc, hihp]
      -- one downward step from p consumes b and lands on n
      have hplen : (pathOf t p).length < (pathOf t p ++ ([b] ++ rest)).length := by
        simp
      have hbyte : kbOf (pathOf t p ++ ([b] ++ rest)) (pathOf t p).length = b := by
        rw [kbOf]
        rw [List.getD_append_right _ _ _ _ (le_refl _)]
        simp
      rw [lookupGo_step t _ _ p hplen hp.2.2.2.1, hbyte]
      have hcode : code t b = baseAt t p ^^^ n := by
        have htbl := hw.tbl (baseAt t p ^^^ n) hp.2.2.2.2
        simp only [hbdef, edge, code]
        rw [htbl.2, htbl.1]
      have hchild : baseAt t p ^^^ code t b = n := by
        rw [hcode, ← Nat.xor_assoc, Nat.xor_self, Nat.zero_xor]
      rw [hchild, if_pos hpdef.symm]
      have hlen : (pathOf t p ++ [b]).length = (pathOf t p).length + 1 := by simp
      rw [hlen]

/-! ### Suffix decoding vs. suffix matching -/

theorem boundaryAt_true_lt {t : Trie} {p : Nat} (h : boundaryAt t p = true) :
    p < t.boundary.length := by
  by_contra hle
  rw [boundaryAt, List.getD_eq_default _ _ (Nat.le_of_not_lt hle)] at h
  exact Bool.false_ne_true h

theorem decodeText_nil_iff (t : Trie) (p : Nat) :
    decodeText t p = [] ↔ tailAt t p = 0 := by
  rw [decodeText]
  cases h : t.tail.length - p with
  | zero =>
    have h0 : tailAt t p = 0 := List.getD_eq_default _ _ (by omega)
    simp [decodeTextF, h0]
  | succ m =>
    simp only [decodeTextF]
    by_cases h0 : tailAt t p = 0 <;> simp [h0]

theorem decodeText_cons (t : Trie) (p : Nat) (h : tailAt t p ≠ 0) :
    decodeText t p = tailAt t p :: decodeText t (p + 1) := by
  have hlt : p < t.tail.length := tailAt_ne_zero_lt h
  rw [decodeText, decodeText]
  have harith : t.tail.length - p = (t.tail.length - (p + 1)) + 1 := by omega
  rw [harith]
  simp [decodeTextF, h]

theorem decodeBin_boundary (t : Trie) (p : Nat) (h : boundaryAt t p = true) :
    decodeBin t p = [tailAt t p] := by
  have hlt : p < t.boundary.length := boundaryAt_true_lt h
  rw [decodeBin]
  have harith : t.boundary.length - p = (t.boundary.length - (p + 1)) + 1 := by omega
  rw [harith]
  simp [decodeBinF, h]

theorem decodeBin_cons (t : Trie) (p : Nat) (h : boundaryAt t p = false)
    (hlt : p < t.boundary.length) :
    decodeBin t p = tailAt t p :: decodeBin t (p + 1) := by
  rw [decodeBin, decodeBin]
  have harith : t.boundary.length - p = (t.boundary.length - (p + 1)) + 1 := by omega
  rw [harith]
  simp [decodeBinF, h, Nat.not_le.mpr hlt]

theorem decodeBin_head (t : Trie) (p : Nat) : ∃ r, decodeBin t p = tailAt t p :: r := by
  rw [decodeBin]
  cases t.boundary.length - p with
  | zero => exact ⟨[], rfl⟩
  | succ m =>
    simp only [decodeBinF]
    split
    · exact ⟨[], rfl⟩
    · exact ⟨_, rfl⟩

theorem kbOf_getElem (key : List Nat) (pos : Nat) (hpos : pos < key.length) :
    kbOf key pos = key[pos] := List.getD_eq_getElem key 0 hpos

theorem drop_kb_cons (key : List Nat) (pos : Nat) (hpos : pos < key.length) :
    key.drop pos = kbOf key pos :: key.drop (pos + 1) := by
  rw [List.drop_eq_getElem_cons hpos, kbOf_getElem key pos hpos]

theorem drop_ne_decodeText (t : Trie) (key : List Nat) (pos p : Nat)
    (hpos : pos < key.length) (hc : tailAt t p = 0 ∨ kbOf key pos ≠ tailAt t p) :
    ¬ key.drop pos = decodeText t p := by
  intro hR
  rw [drop_kb_cons key pos hpos] at hR
  by_cases h0 : tailAt t p = 0
  · rw [(decodeText_nil_iff t p).mpr h0] at hR
    exact List.cons_ne_nil _ _ hR
  · have hne : kbOf key pos ≠ tailAt t p := hc.resolve_left h0
    rw [decodeText_cons t p h0] at hR
    simp only [List.cons.injEq] at hR
    exact hne hR.1

theorem matchText_decode (t : Trie) (key : List Nat) :
    ∀ m pos p, key.length - pos = m + 1 → pos < key.length →
      (matchTextFromF t (kbOf key) key.length (key.length - pos) pos p = true ↔
        key.drop pos = decodeText t p) := by
  intro m
  induction m with
  | zero =>
    intro pos p hm hpos
    have hnil : key.drop (pos + 1) = [] := List.drop_eq_nil_iff.mpr (by omega)
    rw [hm]
    by_cases hc : tailAt t p = 0 ∨ kbOf key pos ≠ tailAt t p
    · have hLHS : matchTextFromF t (kbOf key) key.length (0 + 1) pos p = false := by
        simp only [matchTextFromF, if_pos hc]
      rw [hLHS]
      simp only [Bool.false_eq_true, false_iff]
      exact drop_ne_decodeText t key pos p hpos hc
    · push_neg at hc
      obtain ⟨h0, hb⟩ := hc
      have hLHS : matchTextFromF t (kbOf key) key.length (0 + 1) pos p =
          (tailAt t (p + 1) == 0) := by
        simp only [matchTextFromF]
        rw [if_neg (by push_neg; exact ⟨h0, hb⟩), if_neg (by omega : ¬ pos + 1 < key.length)]
      rw [hLHS, drop_kb_cons key pos hpos, hnil, decodeText_cons t p h0, beq_iff_eq]
      constructor
      · intro h
        rw [hb, (decodeText_nil_iff t (p + 1)).mpr h]
      · intro h
        simp only [List.cons.injEq] at h
        exact (decodeText_nil_iff t (p + 1)).mp h.2.symm
  | succ m ih =>
    intro pos p hm hpos
    have hpos1 : pos + 1 < key.length := by omega
    rw [hm]
    by_cases hc : tailAt t p = 0 ∨ kbOf key pos ≠ tailAt t p
    · have hLHS : matchTextFromF t (kbOf key) key.length (m + 1 + 1) pos p = false := by
        simp only [matchTextFromF, if_pos hc]
      rw [hLHS]
      simp only [Bool.false_eq_true, false_iff]
      exact drop_ne_decodeText t key pos p hpos hc
    · push_neg at hc
      obtain ⟨h0, hb⟩ := hc
      have hLHS : matchTextFromF t (kbOf key) key.length (m + 1 + 1) pos p =
          matchTextFromF t (kbOf key) key.length (m + 1) (pos + 1) (p + 1) := by
        simp only [matchTextFromF]
        rw [if_neg (by push_neg; exact ⟨h0, hb⟩), if_pos hpos1]
      have hm' : key.length - (pos + 1) = m + 1 := by omega
      have hih := ih (pos + 1) (p + 1) hm' hpos1
      rw [hm'] at hih
      rw [hLHS, hih, drop_kb_cons key pos hpos, decodeText_cons t p h0]
      simp only [List.cons.injEq]
      constructor
      · intro h
        exact ⟨hb, h⟩
      · intro h
        exact h.2

theorem decodeBin_ne_nil (t : Trie) (p : Nat) : decodeBin t p ≠ [] := by
  obtain ⟨r, hr⟩ := decodeBin_head t p
  rw [hr]
  exact List.cons_ne_nil _ _

theorem drop_ne_decodeBin (t : Trie) (key : List Nat) (pos p : Nat)
    (hpos : pos < key.length) (hne : kbOf key pos ≠ tailAt t p) :
    ¬ key.drop pos = decodeBin t p := by
  intro hR
  obtain ⟨r, hr⟩ := decodeBin_head t p
  rw [drop_kb_cons key pos hpos, hr] at hR
  simp only [List.cons.injEq] at hR
  exact hne hR.1

theorem matchBin_decode (t : Trie) (key : List Nat) :
    ∀ m pos p, key.length - pos = m + 1 → pos < key.length →
      (∃ e, e < t.boundary.length ∧ p ≤ e ∧ boundaryAt t e = true) →
      (matchBinFromF t (kbOf key) key.length (key.length - pos) pos p = true ↔
        key.drop pos = decodeBin t p) := by
  intro m
  induction m with
  | zero =>
    intro pos p hm hpos hbnd
    have hnil : key.drop (pos + 1) = [] := List.drop_eq_nil_iff.mpr (by omega)
    rw [hm]
    by_cases hne : kbOf key pos ≠ tailAt t p
    · have hLHS : matchBinFromF t (kbOf key) key.length (0 + 1) pos p = false := by
        simp only [matchBinFromF, if_pos hne]
      rw [hLHS]
      simp only [Bool.false_eq_true, false_iff]
      exact drop_ne_decodeBin t key pos p hpos hne
    · push_neg at hne
      by_cases hbd : boundaryAt t p = true
      · have hLHS : matchBinFromF t (kbOf key) key.length (0 + 1) pos p =
            (pos + 1 == key.length) := by
          simp only [matchBinFromF, if_neg (not_not_intro hne), if_pos hbd]
        have hq : pos + 1 = key.length := by omega
        rw [hLHS, drop_kb_cons key pos hpos, hnil, decodeBin_boundary t p hbd, hne]
        simp [hq]
      · have hbdf : boundaryAt t p = false := by
          cases h : boundaryAt t p
          · rfl
          · exact absurd h hbd
        obtain ⟨e, he2, he1, he3⟩ := hbnd
        have hpe : p < e := by
          rcases Nat.lt_or_ge p e with h | h
          · exact h
          · have : p = e := by omega
            rw [this] at hbdf
            rw [hbdf] at he3
            exact absurd he3 (by simp)
        have hLHS : matchBinFromF t (kbOf key) key.length (0 + 1) pos p = false := by
          simp only [matchBinFromF, if_neg (not_not_intro hne), hbdf]
          rw [if_neg (by simp), if_neg (by omega : ¬ pos + 1 < key.length)]
        rw [hLHS]
        simp only [Bool.false_eq_true, false_iff]
        intro hR
        rw [drop_kb_cons key pos hpos, hnil,
          decodeBin_cons t p hbdf (by omega)] at hR
        simp only [List.cons.injEq] at hR
        exact decodeBin_ne_nil t (p + 1) hR.2.symm
  | succ m ih =>
    intro pos p hm hpos hbnd
    have hpos1 : pos + 1 < key.length := by omega
    rw [hm]
    by_cases hne : kbOf key pos ≠ tailAt t p
    · have hLHS : matchBinFromF t (kbOf key) key.length (m + 1 + 1) pos p = false := by
        simp only [matchBinFromF, if_pos hne]
      rw [hLHS]
      simp only [Bool.false_eq_true, false_iff]
      exact drop_ne_decodeBin t key pos p hpos hne
    · push_neg at hne
      by_cases hbd : boundaryAt t p = true
      · have hLHS : matchBinFromF t (kbOf key) key.length (m + 1 + 1) pos p =
            (pos + 1 == key.length) := by
          simp only [matchBinFromF, if_neg (not_not_intro hne), if_pos hbd]
        rw [hLHS, drop_kb_cons key pos hpos, decodeBin_boundary t p hbd, hne]
        simp only [beq_iff_eq, List.cons.injEq]
        constructor
        · intro h
          exact absurd h (by omega)
        · intro h
          have := List.drop_eq_nil_iff.mp h.2
          omega
      · have hbdf : boundaryAt t p = false := by
          cases h : boundaryAt t p
          · rfl
          · exact absurd h hbd
        obtain ⟨e, he2, he1, he3⟩ := hbnd
        have hpe : p < e := by
          rcases Nat.lt_or_ge p e with h | h
          · exact h
          · have : p = e := by omega
            rw [this] at hbdf
            rw [hbdf] at he3
            exact absurd he3 (by simp)
        have hLHS : matchBinFromF t (kbOf key) key.length (m + 1 + 1) pos p =
            matchBinFromF t (kbOf key) key.length (m + 1) (pos + 1) (p + 1) := by
          simp only [matchBinFromF, if_neg (not_not_intro hne), hbdf]
          rw [if_neg (by simp), if_pos hpos1]
        have hm' : key.length - (pos + 1) = m + 1 := by omega
        have hih := ih (pos + 1) (p + 1) hm' hpos1 ⟨e, he2, by omega, he3⟩
        rw [hm'] at hih
        rw [hLHS, hih, drop_kb_cons key pos hpos, decodeBin_cons t p hbdf (by omega)]
        simp only [List.cons.injEq]
        constructor
        · intro h
          exact ⟨hne, h⟩
        · intro h
          exact h.2

theorem matchSuffix_decode_text (t : Trie) (key : List Nat) (pos p : Nat)
    (hpos : pos < key.length) (hb : t.bin_mode = false) :
    (matchSuffixF t (kbOf key) key.length pos p = true ↔ key.drop pos = decodeText t p) := by
  have h1 : matchSuffixF t (kbOf key) key.length pos p =
      matchTextFromF t (kbOf key) key.length (key.length - pos) pos p := by
    rw [matchSuffixF, if_neg (by omega : ¬ pos = key.length)]
    simp [hb]
  rw [h1]
  exact matchText_decode t key (key.length - pos - 1) pos p (by omega) hpos

theorem matchSuffix_decode_bin (t : Trie) (key : List Nat) (pos p : Nat)
    (hpos : pos < key.length) (hb : t.bin_mode = true)
    (hbnd : ∃ e, e < t.boundary.length ∧ p ≤ e ∧ boundaryAt t e = true) :
    (matchSuffixF t (kbOf key) key.length pos p = true ↔ key.drop pos = decodeBin t p) := by
  have h1 : matchSuffixF t (kbOf key) key.length pos p =
      matchBinFromF t (kbOf key) key.length (key.length - pos) pos p := by
    rw [matchSuffixF, if_neg (by omega : ¬ pos = key.length)]
    simp [hb]
  rw [h1]
  exact matchBin_decode t key (key.length - pos - 1) pos p (by omega) hpos hbnd

theorem accInlineBin_eq (t : Trie) (p : Nat) : accInlineBin t p = decodeBin t p := by
  rw [accInlineBin, decodeBin, accInlineBinF_eq_decodeBinF]

theorem accInlineText_eq (t : Trie) (p : Nat) (h : tailAt t p ≠ 0) :
    accInlineText t p = decodeText t p := by
  rw [accInlineText, decodeText, accInlineTextF_eq_decodeTextF t _ p h]
  exact decodeTextF_congr t _ _ p (by omega) (by omega)

/-- C1: on a well-formed trie (see `WFp` for the spec-modelled builder
invariants), decoding any in-range id with `access` and looking the decoded
byte string back up returns the same id. -/
theorem c1_lookup_access (t : Trie) (hw : WellFormed t) (id : Nat)
    (hid : id < t.num_keys) : lookup t (access t id) = id := by
  obtain ⟨d, u, hw⟩ := hw
  have hcnt : id < t.terminal.count true := by rw [← hw.nk]; exact hid
  obtain ⟨hlt, hget, hrank⟩ := selectL_spec t.terminal id hcnt
  have hnN : toNodeId t id < t.check.length := by
    rw [← hw.term_len]
    exact hlt
  have hterm : terminalAt t (toNodeId t id) = true := hget
  have hused : usedAt u (toNodeId t id) = true := hw.term_used _ hnN hterm
  have hkey : toKeyId t (toNodeId t id) = id := hrank
  by_cases hleaf : leafAt t (toNodeId t id) = true
  · by_cases hlink : linkAt t (toNodeId t id) = 0
    · have ha : access t id = pathOf t (toNodeId t id) := by
        simp [access, Nat.not_le.mpr hid, hleaf, hlink]
      have h2 := lookupGo_from_path t d u hw (dAt d (toNodeId t id)) _ (le_refl _) hnN hused []
      rw [List.append_nil] at h2
      rw [lookup, ha, h2, lookupGo_leaf t _ _ _ hleaf]
      have hm : matchSuffixF t (kbOf (pathOf t (toNodeId t id)))
          (pathOf t (toNodeId t id)).length (pathOf t (toNodeId t id)).length
          (linkAt t (toNodeId t id)) = true := by
        rw [matchSuffixF, if_pos rfl, hlink]
        rfl
      rw [if_pos hm, hkey]
    · have hll := hw.leaf_link _ hnN hused hleaf hlink
      have hnf : linkAt t (toNodeId t id) ≠ NOT_FOUND := by
        have h1 := hll.1
        have h2 := hw.tail_lt
        omega
      have ha : access t id =
          pathOf t (toNodeId t id) ++ accessSuffix t (linkAt t (toNodeId t id)) := by
        simp [access, Nat.not_le.mpr hid, hleaf, hlink, hnf]
      cases hbm : t.bin_mode with
      | false =>
        have htz := hll.2.1 hbm
        have hsuf : accessSuffix t (linkAt t (toNodeId t id)) =
            decodeText t (linkAt t (toNodeId t id)) := by
          simp [accessSuffix, hbm, accInlineText_eq t _ htz]
        have hne : decodeText t (linkAt t (toNodeId t id)) ≠ [] := by
          rw [decodeText_cons t _ htz]
          exact List.cons_ne_nil _ _
        have h2 := lookupGo_from_path t d u hw (dAt d (toNodeId t id)) _ (le_refl _) hnN hused
          (decodeText t (linkAt t (toNodeId t id)))
        rw [lookup, ha, hsuf, h2, lookupGo_leaf t _ _ _ hleaf]
        have hposlt : (pathOf t (toNodeId t id)).length <
            (pathOf t (toNodeId t id) ++ decodeText t (linkAt t (toNodeId t id))).length := by
          rw [List.length_append]
          have := List.length_pos.mpr hne
          omega
        have hdrop : (pathOf t (toNodeId t id) ++
            decodeText t (linkAt t (toNodeId t id))).drop (pathOf t (toNodeId t id)).length =
            decodeText t (linkAt t (toNodeId t id)) := List.drop_left _ _
        have hm := (matchSuffix_decode_text t _ _ _ hposlt hbm).mpr hdrop
        rw [if_pos hm, hkey]
      | true =>
        have hbnd := hll.2.2 hbm
        have hsuf : accessSuffix t (linkAt t (toNodeId t id)) =
            decodeBin t (linkAt t (toNodeId t id)) := by
          simp [accessSuffix, hbm, accInlineBin_eq]
        have hne := decodeBin_ne_nil t (linkAt t (toNodeId t id))
        have h2 := lookupGo_from_path t d u hw (dAt d (toNodeId t id)) _ (le_refl _) hnN hused
          (decodeBin t (linkAt t (toNodeId t id)))
        rw [lookup, ha, hsuf, h2, lookupGo_leaf t _ _ _ hleaf]
        have hposlt : (pathOf t (toNodeId t id)).length <
            (pathOf t (toNodeId t id) ++ decodeBin t (linkAt t (toNodeId t id))).length := by
          rw [List.length_append]
          have := List.length_pos.mpr hne
          omega
        have hdrop : (pathOf t (toNodeId t id) ++
            decodeBin t (linkAt t (toNodeId t id))).drop (pathOf t (toNodeId t id)).length =
            decodeBin t (linkAt t (toNodeId t id)) := List.drop_left _ _
        have hm := (matchSuffix_decode_bin t _ _ _ hposlt hbm hbnd).mpr hdrop
        rw [if_pos hm, hkey]
  · have hleaff : leafAt t (toNodeId t id) = false := by
      cases h : leafAt t (toNodeId t id)
      · rfl
      · exact absurd h hleaf
    have ha : access t id = pathOf t (toNodeId t id) := by
      simp [access, Nat.not_le.mpr hid, hleaff]
    have h2 := lookupGo_from_path t d u hw (dAt d (toNodeId t id)) _ (le_refl _) hnN hused []
    rw [List.append_nil] at h2
    rw [lookup, ha, h2, lookupGo_exhaust t _ _ _ (le_refl _) hleaff, if_pos hterm, hkey]

theorem c1_witness : 0 < trieAabc.num_keys ∧ lookup trieAabc (access trieAabc 0) = 0 :=
  ⟨by decide,
   c1_lookup_access trieAabc ⟨[0, 1, 2], [true, true, true], by constructor <;> decide⟩ 0
     (by decide)⟩

theorem toNodeId_toKeyId (t : Trie) (d : List Nat) (u : List Bool) (hw : WFp t d u)
    (node : Nat) (hn : node < t.check.length) (hterm : terminalAt t node = true) :
    toNodeId t (toKeyId t node) = node ∧ toKeyId t node < t.num_keys := by
  have hlen : node < t.terminal.length := by rw [hw.term_len]; exact hn
  constructor
  · exact selectL_rankL t.terminal node hlen hterm
  · rw [hw.nk]
    exact rankL_lt_count t.terminal node hlen hterm

theorem access_of_node (t : Trie) (d : List Nat) (u : List Bool) (hw : WFp t d u)
    (node : Nat) (hn : node < t.check.length) (hterm : terminalAt t node = true) :
    toKeyId t node < t.num_keys ∧
    access t (toKeyId t node) =
      pathOf t node ++
        (if leafAt t node = true ∧ linkAt t node ≠ 0 then accessSuffix t (linkAt t node)
         else []) := by
  obtain ⟨hsel, hlt⟩ := toNodeId_toKeyId t d u hw node hn hterm
  refine ⟨hlt, ?_⟩
  by_cases hleaf : leafAt t node = true
  · by_cases hlink : linkAt t node = 0
    · simp [access, Nat.not_le.mpr hlt, hsel, hleaf, hlink]
    · have hused := hw.term_used _ hn hterm
      have hll := hw.leaf_link _ hn hused hleaf hlink
      have hnf : linkAt t node ≠ NOT_FOUND := by
        have h1 := hll.1
        have h2 := hw.tail_lt
        omega
      simp [access, Nat.not_le.mpr hlt, hsel, hleaf, hlink, hnf]
  · have hlf : leafAt t node = false := by
      cases h : leafAt t node
      · rfl
      · exact absurd h hleaf
    simp [access, Nat.not_le.mpr hlt, hsel, hlf]

theorem lookupGo_complete (t : Trie) (d : List Nat) (u : List Bool) (hw : WFp t d u)
    (key : List Nat) (halpha : ∀ b ∈ key, b ∈ t.alphabet) (hbin : t.bin_mode = false) :
    ∀ m pos node, key.length - pos ≤ m → pos ≤ key.length →
      node < t.check.length → usedAt u node = true →
      pathOf t node = key.take pos →
      lookupGo t key pos node ≠ NOT_FOUND →
      lookupGo t key pos node < t.num_keys ∧ access t (lookupGo t key pos node) = key := by
  intro m
  induction m with
  | zero =>
    intro pos node hm hpos hn hu hpath hres
    have hposlen : pos = key.length := by omega
    by_cases hleaf : leafAt t node = true
    · rw [lookupGo_leaf t key pos node hleaf] at hres ⊢
      by_cases hmatch : matchSuffixF t (kbOf key) key.length pos (linkAt t node) = true
      · rw [if_pos hmatch] at hres ⊢
        have hlink : linkAt t node = 0 := by
          rw [matchSuffixF, if_pos hposlen] at hmatch
          exact beq_iff_eq.mp hmatch
        have hterm := hw.leaf_term _ hn hu hleaf
        obtain ⟨hlt, hacc⟩ := access_of_node t d u hw node hn hterm
        refine ⟨hlt, ?_⟩
        rw [hacc, if_neg (by simp [hlink]), List.append_nil, hpath, hposlen,
          List.take_length]
      · rw [if_neg hmatch] at hres
        exact absurd rfl hres
    · have hlf : leafAt t node = false := by
        cases h : leafAt t node
        · rfl
        · exact absurd h hleaf
      rw [lookupGo_exhaust t key pos node (by omega) hlf] at hres ⊢
      by_cases hterm : terminalAt t node = true
      · rw [if_pos hterm] at hres ⊢
        obtain ⟨hlt, hacc⟩ := access_of_node t d u hw node hn hterm
        refine ⟨hlt, ?_⟩
        rw [hacc, if_neg (by simp [hlf]), List.append_nil, hpath, hposlen,
          List.take_length]
      · rw [if_neg hterm] at hres
        exact absurd rfl hres
  | succ m ih =>
    intro pos node hm hpos hn hu hpath hres
    by_cases hleaf : leafAt t node = true
    · rw [lookupGo_leaf t key pos node hleaf] at hres ⊢
      by_cases hmatch : matchSuffixF t (kbOf key) key.length pos (linkAt t node) = true
      · rw [if_pos hmatch] at hres ⊢
        have hterm := hw.leaf_term _ hn hu hleaf
        obtain ⟨hlt, hacc⟩ := access_of_node t d u hw node hn hterm
        refine ⟨hlt, ?_⟩
        by_cases hposlen : pos = key.length
        · have hlink : linkAt t node = 0 := by
            rw [matchSuffixF, if_pos hposlen] at hmatch
            exact beq_iff_eq.mp hmatch
          rw [hacc, if_neg (by simp [hlink]), List.append_nil, hpath, hposlen,
            List.take_length]
        · have hposlt : pos < key.length := by omega
          have hlink : linkAt t node ≠ 0 := by
            intro h0
            rw [h0] at hmatch
            rw [matchSuffixF, if_neg hposlen, hbin] at hmatch
            have hmz : matchTextFromF t (kbOf key) key.length (key.length - pos) pos 0 =
                false := by
              cases key.length - pos with
              | zero => simp [matchTextFromF, hw.tail0]
              | succ k => simp [matchTextFromF, hw.tail0]
            simp only [Bool.false_eq_true, if_false] at hmatch
            rw [hmz] at hmatch
            exact Bool.false_ne_true hmatch
          have hdrop := (matchSuffix_decode_text t key pos (linkAt t node) hposlt hbin).mp
            hmatch
          have htz := (hw.leaf_link _ hn hu hleaf hlink).2.1 hbin
          have hsuf : accessSuffix t (linkAt t node) = decodeText t (linkAt t node) := by
            simp [accessSuffix, hbin, accInlineText_eq t _ htz]
          rw [hacc, if_pos ⟨hleaf, hlink⟩, hsuf, hpath, ← hdrop, List.take_append_drop]
      · rw [if_neg hmatch] at hres
        exact absurd rfl hres
    · have hlf : leafAt t node = false := by
        cases h : leafAt t node
        · rfl
        · exact absurd h hleaf
      by_cases hposlen : key.length ≤ pos
      · rw [lookupGo_exhaust t key pos node hposlen hlf] at hres ⊢
        by_cases hterm : terminalAt t node = true
        · rw [if_pos hterm] at hres ⊢
          obtain ⟨hlt, hacc⟩ := access_of_node t d u hw node hn hterm
          refine ⟨hlt, ?_⟩
          have hpl : pos = key.length := by omega
          rw [hacc, if_neg (by simp [hlf]), List.append_nil, hpath, hpl, List.take_length]
        · rw [if_neg hterm] at hres
          exact absurd rfl hres
      · have hposlt : pos < key.length := by omega
        rw [lookupGo_step t key pos node hposlt hlf] at hres ⊢
        by_cases hcheck : checkAt t (baseAt t node ^^^ code t (kbOf key pos)) = node
        · rw [if_pos hcheck] at hres ⊢
          have hNlt := hw.n_lt
          have hchildN : baseAt t node ^^^ code t (kbOf key pos) < t.check.length := by
            by_contra hge
            rw [checkAt, List.getD_eq_default _ _ (by omega)] at hcheck
            omega
          have hchildU : usedAt u (baseAt t node ^^^ code t (kbOf key pos)) = true := by
            by_cases h : usedAt u (baseAt t node ^^^ code t (kbOf key pos)) = true
            · exact h
            · have hfree := hw.free_check _ hchildN (by
                cases h2 : usedAt u (baseAt t node ^^^ code t (kbOf key pos))
                · rfl
                · exact absurd h2 h)
              rw [hcheck, hu] at hfree
              exact absurd hfree (by simp)
          have hchild0 : 0 < baseAt t node ^^^ code t (kbOf key pos) := by
            rcases Nat.eq_zero_or_pos (baseAt t node ^^^ code t (kbOf key pos)) with h | h
            · rw [h] at hcheck
              rw [hw.root_check] at hcheck
              omega
            · exact h
          -- the consumed byte is in the alphabet, so the code/edge round-trip is exact
          have hbmem : kbOf key pos ∈ t.alphabet := by
            apply halpha
            rw [kbOf_getElem key pos hposlt]
            exact List.getElem_mem hposlt
          obtain ⟨i, hi, hib⟩ := List.mem_iff_getElem.mp hbmem
          have hibD : t.alphabet.getD i 0 = kbOf key pos := by
            rw [List.getD_eq_getElem t.alphabet 0 hi, hib]
          have htbl := hw.tbl i hi
          have hcode : code t (kbOf key pos) = i := by
            rw [code, ← hibD, htbl.1]
          have hedge : edge t node (baseAt t node ^^^ code t (kbOf key pos)) =
              kbOf key pos := by
            rw [edge, ← Nat.xor_assoc, Nat.xor_self, Nat.zero_xor, hcode, htbl.2, hibD]
          have hpath' : pathOf t (baseAt t node ^^^ code t (kbOf key pos)) =
              key.take (pos + 1) := by
            rw [pathOf_step t d u hw _ hchildN hchildU hchild0, hcheck, hedge,
              List.take_succ, hpath]
            congr 1
            rw [List.getElem?_eq_getElem hposlt]
            rw [kbOf_getElem key pos hposlt]
            rfl
          exact ih (pos + 1) _ (by omega) (by omega) hchildN hchildU hpath' hres
        · rw [if_neg hcheck] at hres
          exact absurd rfl hres

/-- C4 as stated is false: the 512-entry code table is zero-initialized, so
any byte absent from the alphabet is mapped to code 0 — the code of the
smallest alphabet byte.  On the well-formed one-key dictionary `{"a"}`,
`lookup("z")` therefore walks the `'a'` edge and returns id 0 even though
`"z"` is not registered. -/
theorem c4_counterexample :
    WellFormed trieA ∧ ¬ [122] ∈ keysOf trieA ∧ lookup trieA [122] ≠ NOT_FOUND :=
  ⟨⟨[0, 1], [true, true], by constructor <;> decide⟩, by decide, by decide⟩

/-- C4 amended: in text mode, for every byte string over the trie's
alphabet that is not in the registered key set, `lookup` returns the
reserved sentinel `NOT_FOUND = ID_MAX`; absence is signalled only through
this sentinel (the function returns a plain id otherwise).  (Bytes outside
the alphabet alias through the zero-initialized code table, and in binary
mode an unexhausted input can false-positively match at tail position 0 —
see the counterexample and `c7_counterexample`.) -/
theorem c4_negative_correctness (t : Trie) (hw : WellFormed t)
    (hbin : t.bin_mode = false) (s : List Nat) (halpha : ∀ b ∈ s, b ∈ t.alphabet)
    (hmem : ¬ s ∈ keysOf t) : lookup t s = NOT_FOUND := by
  by_contra hne
  obtain ⟨d, u, hw⟩ := hw
  have h := lookupGo_complete t d u hw s halpha hbin s.length 0 0 (by omega) (by omega)
    hw.n_pos hw.root_used (by rw [pathOf_zero t d u hw]; simp) hne
  exact hmem (List.mem_map.mpr ⟨lookup t s, List.mem_range.mpr h.1, h.2⟩)

theorem c4_witness : lookup trieAabc [97, 98] = NOT_FOUND :=
  c4_negative_correctness trieAabc
    ⟨[0, 1, 2], [true, true, true], by constructor <;> decide⟩ (by decide) [97, 98]
    (by decide) (by decide)

/-! ### Structure of the trie below a node -/

theorem child_facts (t : Trie) (d : List Nat) (u : List Bool) (hw : WFp t d u)
    (node ch : Nat) (hn : node < t.check.length) (hu : usedAt u node = true)
    (hcheck : checkAt t ch = node) :
    ch < t.check.length ∧ usedAt u ch = true ∧ 0 < ch := by
  have hNlt := hw.n_lt
  have hchN : ch < t.check.length := by
    by_contra hge
    rw [checkAt, List.getD_eq_default _ _ (by omega)] at hcheck
    omega
  have hchU : usedAt u ch = true := by
    by_cases h : usedAt u ch = true
    · exact h
    · have hfree := hw.free_check _ hchN (by
        cases h2 : usedAt u ch
        · rfl
        · exact absurd h2 h)
      rw [hcheck, hu] at hfree
      exact absurd hfree (by simp)
  have hch0 : 0 < ch := by
    rcases Nat.eq_zero_or_pos ch with h | h
    · rw [h, hw.root_check] at hcheck
      omega
    · exact h
  exact ⟨hchN, hchU, hch0⟩

theorem leaf_no_child (t : Trie) (d : List Nat) (u : List Bool) (hw : WFp t d u)
    (L ch : Nat) (hL : L < t.check.length) (huL : usedAt u L = true)
    (hleaf : leafAt t L = true) (hcheck : checkAt t ch = L) : False := by
  obtain ⟨hchN, hchU, hch0⟩ := child_facts t d u hw L ch hL huL hcheck
  have hp := hw.parent ch hchN hchU hch0
  rw [hcheck, hleaf] at hp
  simp at hp

theorem mem_childrenOf (t : Trie) (node : Nat) (bc : Nat × Nat) :
    bc ∈ childrenOf t node ↔
      bc.1 ∈ t.alphabet ∧ bc.2 = baseAt t node ^^^ code t bc.1 ∧
        checkAt t bc.2 = node := by
  rw [childrenOf, List.mem_filterMap]
  constructor
  · rintro ⟨a, ha, hfa⟩
    simp only at hfa
    by_cases hc : checkAt t (baseAt t node ^^^ code t a) = node
    · rw [if_pos hc] at hfa
      have hbc : bc = (a, baseAt t node ^^^ code t a) := by
        injection hfa with h
        exact h.symm
      subst hbc
      exact ⟨ha, rfl, hc⟩
    · rw [if_neg hc] at hfa
      exact absurd hfa (by simp)
  · rintro ⟨ha, hch, hcheck⟩
    refine ⟨bc.1, ha, ?_⟩
    simp only
    rw [← hch, if_pos hcheck]

theorem alphaGetD_strictMono (t : Trie) (d : List Nat) (u : List Bool) (hw : WFp t d u)
    (i j : Nat) (hij : i < j) (hj : j < t.alphabet.length) :
    t.alphabet.getD i 0 < t.alphabet.getD j 0 := by
  have hi : i < t.alphabet.length := by omega
  rw [List.getD_eq_getElem _ _ hi, List.getD_eq_getElem _ _ hj]
  exact List.pairwise_iff_getElem.mp hw.alpha_sorted i j hi hj hij

theorem code_inj_on_alphabet (t : Trie) (d : List Nat) (u : List Bool) (hw : WFp t d u)
    (i j : Nat) (hi : i < t.alphabet.length) (hj : j < t.alphabet.length)
    (heq : t.alphabet.getD i 0 = t.alphabet.getD j 0) : i = j := by
  rcases Nat.lt_trichotomy i j with h | h | h
  · exact absurd heq (Nat.ne_of_lt (alphaGetD_strictMono t d u hw i j h hj))
  · exact h
  · exact absurd heq.symm (Nat.ne_of_lt (alphaGetD_strictMono t d u hw j i h hi))

/-- The valid child reached from `node` on alphabet byte `b` has path
`pathOf node ++ [b]`. -/
theorem child_path (t : Trie) (d : List Nat) (u : List Bool) (hw : WFp t d u)
    (node b : Nat) (hn : node < t.check.length) (hu : usedAt u node = true)
    (hb : b ∈ t.alphabet)
    (hcheck : checkAt t (baseAt t node ^^^ code t b) = node) :
    pathOf t (baseAt t node ^^^ code t b) = pathOf t node ++ [b] := by
  obtain ⟨hchN, hchU, hch0⟩ := child_facts t d u hw node _ hn hu hcheck
  obtain ⟨i, hi, hib⟩ := List.mem_iff_getElem.mp hb
  have hibD : t.alphabet.getD i 0 = b := by
    rw [List.getD_eq_getElem t.alphabet 0 hi, hib]
  have htbl := hw.tbl i hi
  have hcode : code t b = i := by
    rw [code, ← hibD, htbl.1]
  have hedge : edge t node (baseAt t node ^^^ code t b) = b := by
    rw [edge, ← Nat.xor_assoc, Nat.xor_self, Nat.zero_xor, hcode, htbl.2, hibD]
  rw [pathOf_step t d u hw _ hchN hchU hch0, hcheck, hedge]

/-- Conversely, every valid child of a used node arises from some alphabet
byte, i.e. is listed in `childrenOf`. -/
theorem child_mem_childrenOf (t : Trie) (d : List Nat) (u : List Bool) (hw : WFp t d u)
    (node ch : Nat) (hn : node < t.check.length) (hu : usedAt u node = true)
    (hcheck : checkAt t ch = node) :
    (edge t node ch, ch) ∈ childrenOf t node ∧ edge t node ch ∈ t.alphabet := by
  obtain ⟨hchN, hchU, hch0⟩ := child_facts t d u hw node ch hn hu hcheck
  have hp := hw.parent ch hchN hchU hch0
  rw [hcheck] at hp
  have hc : baseAt t node ^^^ ch < t.alphabet.length := hp.2.2.2.2
  have htbl := hw.tbl _ hc
  have hedge : edge t node ch = t.alphabet.getD (baseAt t node ^^^ ch) 0 := by
    rw [edge, htbl.2]
  have hbmem : edge t node ch ∈ t.alphabet := by
    rw [hedge, List.getD_eq_getElem _ _ hc]
    exact List.getElem_mem hc
  refine ⟨(mem_childrenOf t node _).mpr ⟨hbmem, ?_, ?_⟩, hbmem⟩
  · have hcode : code t (edge t node ch) = baseAt t node ^^^ ch := by
      rw [code, hedge, htbl.1]
    simp only [hcode]
    rw [← Nat.xor_assoc, Nat.xor_self, Nat.zero_xor]
  · exact hcheck

theorem pathOf_ne_nil (t : Trie) (d : List Nat) (u : List Bool) (hw : WFp t d u)
    (n : Nat) (hn : n < t.check.length) (hu : usedAt u n = true) (h0 : 0 < n) :
    pathOf t n ≠ [] := by
  rw [pathOf_step t d u hw n hn hu h0]
  simp

theorem pathOf_inj (t : Trie) (d : List Nat) (u : List Bool) (hw : WFp t d u) :
    ∀ k n m, dAt d n ≤ k → n < t.check.length → m < t.check.length →
      usedAt u n = true → usedAt u m = true →
      pathOf t n = pathOf t m → n = m := by
  intro k
  induction k with
  | zero =>
    intro n m hk hn hm hun hum hpath
    have hn0 : n = 0 := by
      by_contra h
      have hp := hw.parent n hn hun (Nat.pos_of_ne_zero h)
      omega
    subst hn0
    by_contra hne
    have hm0 : 0 < m := Nat.pos_of_ne_zero (fun h => hne (h ▸ rfl))
    exact pathOf_ne_nil t d u hw m hm hum hm0 (by rw [← hpath, pathOf_zero t d u hw])
  | succ k ih =>
    intro n m hk hn hm hun hum hpath
    by_cases hn0 : n = 0
    · subst hn0
      by_contra hne
      have hm0 : 0 < m := Nat.pos_of_ne_zero (fun h => hne (h ▸ rfl))
      exact pathOf_ne_nil t d u hw m hm hum hm0 (by rw [← hpath, pathOf_zero t d u hw])
    · have hnpos := Nat.pos_of_ne_zero hn0
      have hm0 : 0 < m := by
        by_contra h
        have hm0 : m = 0 := by omega
        subst hm0
        exact pathOf_ne_nil t d u hw n hn hun hnpos
          (by rw [hpath, pathOf_zero t d u hw])
      have hpn := hw.parent n hn hun hnpos
      have hpm := hw.parent m hm hum hm0
      rw [pathOf_step t d u hw n hn hun hnpos, pathOf_step t d u hw m hm hum hm0] at hpath
      have hback := List.append_inj_right' hpath (by simp)
      have hfront : pathOf t (checkAt t n) = pathOf t (checkAt t m) :=
        List.append_inj_left' hpath (by simp)
      have hpar : checkAt t n = checkAt t m :=
        ih (checkAt t n) (checkAt t m) (by omega) hpn.1 hpm.1 hpn.2.1 hpm.2.1 hfront
      have hedge : edge t (checkAt t n) n = edge t (checkAt t m) m := by
        simpa using hback
      rw [← hpar] at hpm hedge
      -- the code-table round-trip shows the two edge codes coincide
      have hcn : baseAt t (checkAt t n) ^^^ n < t.alphabet.length := hpn.2.2.2.2
      have hcm : baseAt t (checkAt t n) ^^^ m < t.alphabet.length := hpm.2.2.2.2
      have htn := hw.tbl _ hcn
      have htm := hw.tbl _ hcm
      have heq : t.alphabet.getD (baseAt t (checkAt t n) ^^^ n) 0 =
          t.alphabet.getD (baseAt t (checkAt t n) ^^^ m) 0 := by
        rw [← htn.2, ← htm.2]
        exact hedge
      have hcodes := code_inj_on_alphabet t d u hw _ _ hcn hcm heq
      have : n = m := by
        have h1 : baseAt t (checkAt t n) ^^^ (baseAt t (checkAt t n) ^^^ n) =
            baseAt t (checkAt t n) ^^^ (baseAt t (checkAt t n) ^^^ m) := by
          rw [hcodes]
        rwa [← Nat.xor_assoc, Nat.xor_self, Nat.zero_xor, ← Nat.xor_assoc,
          Nat.xor_self, Nat.zero_xor] at h1
      exact this

/-! ### Subtree sequences -/

theorem flatMap_congr_mem {α β : Type} (l : List α) (f g : α → List β)
    (h : ∀ a ∈ l, f a = g a) : l.flatMap f = l.flatMap g := by
  induction l with
  | nil => rfl
  | cons a l ih =>
    simp only [List.flatMap_cons]
    rw [h a (by simp), ih (fun x hx => h x (by simp [hx]))]

theorem childrenOf_parent_d (t : Trie) (d : List Nat) (u : List Bool) (hw : WFp t d u)
    (node : Nat) (hn : node < t.check.length) (hu : usedAt u node = true)
    (bc : Nat × Nat) (hbc : bc ∈ childrenOf t node) :
    bc.2 < t.check.length ∧ usedAt u bc.2 = true ∧ dAt d node < dAt d bc.2 ∧
      pathOf t bc.2 = pathOf t node ++ [bc.1] ∧ bc.1 ∈ t.alphabet := by
  obtain ⟨hba, hbeq, hbchk⟩ := (mem_childrenOf t node bc).mp hbc
  obtain ⟨hcN, hcU, hc0⟩ := child_facts t d u hw node bc.2 hn hu hbchk
  have hpar := hw.parent bc.2 hcN hcU hc0
  rw [hbchk] at hpar
  refine ⟨hcN, hcU, hpar.2.2.1, ?_, hba⟩
  rw [hbeq]
  exact child_path t d u hw node bc.1 hn hu hba (by rw [← hbeq]; exact hbchk)

theorem subtreeSeqF_congr (t : Trie) (d : List Nat) (u : List Bool) (hw : WFp t d u) :
    ∀ f g node path, node < t.check.length → usedAt u node = true →
      t.check.length - dAt d node ≤ f → t.check.length - dAt d node ≤ g →
      subtreeSeqF t f node path = subtreeSeqF t g node path := by
  intro f
  induction f with
  | zero =>
    intro g node path hn _ hf _
    have := hw.d_lt node hn
    omega
  | succ f ih =>
    intro g node path hn hu hf hg
    cases g with
    | zero =>
      have := hw.d_lt node hn
      omega
    | succ g =>
      simp only [subtreeSeqF]
      by_cases hleaf : leafAt t node = true
      · simp [hleaf]
      · simp only [hleaf, if_false, Bool.false_eq_true]
        congr 1
        apply flatMap_congr_mem
        intro bc hbc
        obtain ⟨hcN, hcU, hdlt, -, -⟩ := childrenOf_parent_d t d u hw node hn hu bc hbc
        exact ih g bc.2 (path ++ [bc.1]) hcN hcU (by omega) (by omega)

theorem subtreeSizeF_congr (t : Trie) (d : List Nat) (u : List Bool) (hw : WFp t d u) :
    ∀ f g node, node < t.check.length → usedAt u node = true →
      t.check.length - dAt d node ≤ f → t.check.length - dAt d node ≤ g →
      subtreeSizeF t f node = subtreeSizeF t g node := by
  intro f
  induction f with
  | zero =>
    intro g node hn _ hf _
    have := hw.d_lt node hn
    omega
  | succ f ih =>
    intro g node hn hu hf hg
    cases g with
    | zero =>
      have := hw.d_lt node hn
      omega
    | succ g =>
      simp only [subtreeSizeF]
      by_cases hleaf : leafAt t node = true
      · simp [hleaf]
      · simp only [hleaf, if_false, Bool.false_eq_true]
        congr 2
        apply List.map_congr_left
        intro bc hbc
        obtain ⟨hcN, hcU, hdlt, -, -⟩ := childrenOf_parent_d t d u hw node hn hu bc hbc
        exact ih g bc.2 hcN hcU (by omega) (by omega)

theorem subtreeSizeF_pos (t : Trie) (fuel node : Nat) : 0 < subtreeSizeF t fuel node := by
  cases fuel with
  | zero => simp [subtreeSizeF]
  | succ m =>
    simp only [subtreeSizeF]
    split
    · omega
    · omega

theorem pushChildren_eq (t : Trie) (node dep : Nat) :
    ∀ stack, pushChildren t node dep stack =
      ((childrenOf t node).map fun bc => (dep + 1, bc.1, bc.2)) ++ stack := by
  suffices haux : ∀ (l : List Nat) (stack : List (Nat × Nat × Nat)),
      l.reverse.foldl (fun acc b =>
        let child := baseAt t node ^^^ code t b
        if checkAt t child = node then (dep + 1, b, child) :: acc else acc) stack =
      ((l.filterMap fun b =>
          let child := baseAt t node ^^^ code t b
          if checkAt t child = node then some (b, child) else none).map
        fun bc => (dep + 1, bc.1, bc.2)) ++ stack by
    intro stack
    exact haux t.alphabet stack
  intro l
  induction l with
  | nil => intro stack; rfl
  | cons b l ih =>
    intro stack
    rw [List.reverse_cons, List.foldl_append]
    simp only [List.foldl_cons, List.foldl_nil]
    rw [ih]
    by_cases hb : checkAt t (baseAt t node ^^^ code t b) = node
    · simp [hb]
    · simp [hb]

theorem stackWeight_cons (t : Trie) (f : Nat × Nat × Nat) (rest : List (Nat × Nat × Nat)) :
    stackWeight t (f :: rest) = subtreeSizeF t t.check.length f.2.2 + stackWeight t rest := by
  simp [stackWeight]

theorem stackWeight_append (t : Trie) (s1 s2 : List (Nat × Nat × Nat)) :
    stackWeight t (s1 ++ s2) = stackWeight t s1 + stackWeight t s2 := by
  simp [stackWeight]

theorem stackWeight_push (t : Trie) (d : List Nat) (u : List Bool) (hw : WFp t d u)
    (node dep : Nat) (rest : List (Nat × Nat × Nat)) (hn : node < t.check.length)
    (hu : usedAt u node = true) (hleaf : leafAt t node = false) :
    stackWeight t (pushChildren t node dep rest) + 1 =
      subtreeSizeF t t.check.length node + stackWeight t rest := by
  rw [pushChildren_eq, stackWeight_append]
  obtain ⟨m, hN⟩ : ∃ m, t.check.length = m + 1 := ⟨t.check.length - 1, by omega⟩
  have hsize : subtreeSizeF t t.check.length node =
      1 + ((childrenOf t node).map fun bc => subtreeSizeF t m bc.2).sum := by
    rw [hN]
    simp only [subtreeSizeF, hleaf, if_false, Bool.false_eq_true]
  have hmaps : ((childrenOf t node).map fun bc => subtreeSizeF t m bc.2).sum =
      stackWeight t ((childrenOf t node).map fun bc => (dep + 1, bc.1, bc.2)) := by
    rw [stackWeight]
    rw [List.map_map]
    apply congrArg
    apply List.map_congr_left
    intro bc hbc
    obtain ⟨hcN, hcU, hdlt, -, -⟩ := childrenOf_parent_d t d u hw node hn hu bc hbc
    have := hw.d_lt bc.2 hcN
    exact subtreeSizeF_congr t d u hw m t.check.length bc.2 hcN hcU (by omega) (by omega)
  omega

theorem frameSpec_leaf (t : Trie) (d : List Nat) (u : List Bool) (hw : WFp t d u)
    (f : Nat × Nat × Nat) (hleaf : leafAt t f.2.2 = true) :
    frameSpec t f =
      [(pathOf t f.2.2 ++ extractSuffix t (linkAt t f.2.2), toKeyId t f.2.2)] := by
  have hNpos := hw.n_pos
  obtain ⟨m, hN⟩ : ∃ m, t.check.length = m + 1 := ⟨t.check.length - 1, by omega⟩
  rw [frameSpec, hN]
  simp [subtreeSeqF, hleaf]

theorem frameSpec_nonleaf (t : Trie) (d : List Nat) (u : List Bool) (hw : WFp t d u)
    (f : Nat × Nat × Nat) (hn : f.2.2 < t.check.length) (hu : usedAt u f.2.2 = true)
    (hleaf : leafAt t f.2.2 = false) :
    frameSpec t f =
      (if terminalAt t f.2.2 then [(pathOf t f.2.2, toKeyId t f.2.2)] else []) ++
        (childrenOf t f.2.2).flatMap fun bc => frameSpec t (f.1 + 1, bc.1, bc.2) := by
  have hNpos := hw.n_pos
  obtain ⟨m, hN⟩ : ∃ m, t.check.length = m + 1 := ⟨t.check.length - 1, by omega⟩
  rw [frameSpec, hN]
  simp only [subtreeSeqF, hleaf, if_false, Bool.false_eq_true]
  congr 1
  apply flatMap_congr_mem
  intro bc hbc
  obtain ⟨hcN, hcU, hdlt, hcpath, -⟩ := childrenOf_parent_d t d u hw f.2.2 hn hu bc hbc
  rw [frameSpec, hN]
  simp only
  rw [← hcpath]
  have := hw.d_lt bc.2 hcN
  exact subtreeSeqF_congr t d u hw m (m + 1) bc.2 (pathOf t bc.2) hcN hcU
    (by rw [hN] at this ⊢; omega) (by rw [hN] at this ⊢; omega)

/-! ### Buffer adjustment and keys of nodes -/

theorem set_append_len (a : List Nat) (x c : Nat) :
    (a ++ [x]).set a.length c = a ++ [c] := by
  induction a with
  | nil => rfl
  | cons y a ih =>
    show (y :: (a ++ [x])).set (a.length + 1) c = y :: (a ++ [c])
    rw [List.set_cons_succ, ih]

theorem bufAdj_eq (a rest : List Nat) (c : Nat) :
    bufAdj (a ++ rest) (a.length + 1) c = a ++ [c] := by
  rw [bufAdj, if_pos (Nat.succ_pos a.length)]
  have h1 : a.length + 1 - 1 = a.length := rfl
  rw [h1]
  cases rest with
  | nil =>
    rw [List.append_nil, resizeL, if_neg (by omega)]
    have h2 : a.length + 1 - a.length = 1 := by omega
    rw [h2]
    show (a ++ [0]).set a.length c = a ++ [c]
    exact set_append_len a 0 c
  | cons r rs =>
    rw [resizeL, if_pos (by rw [List.length_append]; simp)]
    have h3 : (a ++ r :: rs).take (a.length + 1) = a ++ [r] := by
      rw [List.take_append_eq_append_take]
      have h5 : a.take (a.length + 1) = a := List.take_of_length_le (by omega)
      rw [h5]
      have h4 : a.length + 1 - a.length = 1 := by omega
      rw [h4]
      rfl
    rw [h3]
    exact set_append_len a r c

theorem bufAdj_frame (t : Trie) (u : List Bool) (f : Nat × Nat × Nat) (buf : List Nat)
    (hok : FrameOK t u f) (hpre : (pathOf t f.2.2).take (f.1 - 1) <+: buf) :
    bufAdj buf f.1 f.2.1 = pathOf t f.2.2 := by
  obtain ⟨hd0, hn, hu2, hlen, hlast⟩ := hok
  obtain ⟨rest, hrest⟩ := hpre
  have hal : ((pathOf t f.2.2).take (f.1 - 1)).length = f.1 - 1 := by
    rw [List.length_take]
    omega
  have key := bufAdj_eq ((pathOf t f.2.2).take (f.1 - 1)) rest f.2.1
  rw [hal] at key
  have hf2 : f.1 - 1 + 1 = f.1 := by omega
  rw [hf2, hrest] at key
  rw [key, ← hlast]

theorem extractSuffix_zero (t : Trie) (h0 : tailAt t 0 = 0) : extractSuffix t 0 = [] := by
  rw [extractSuffix]
  by_cases hbm : t.bin_mode = true
  · rw [if_pos hbm, if_neg (fun hc => hc rfl)]
  · rw [if_neg hbm]
    exact (decodeText_nil_iff t 0).mpr h0

theorem path_prefix_keyOf (t : Trie) (nid : Nat) : pathOf t nid <+: keyOf t nid :=
  List.prefix_append _ _

theorem keyOf_nonleaf (t : Trie) (nid : Nat) (h : leafAt t nid = false) :
    keyOf t nid = pathOf t nid := by
  rw [keyOf, if_neg (by simp [h]), List.append_nil]

theorem keyOf_access (t : Trie) (d : List Nat) (u : List Bool) (hw : WFp t d u)
    (nid : Nat) (hn : nid < t.check.length) (hterm : terminalAt t nid = true) :
    toKeyId t nid < t.num_keys ∧ access t (toKeyId t nid) = keyOf t nid := by
  obtain ⟨hlt, hacc⟩ := access_of_node t d u hw nid hn hterm
  refine ⟨hlt, ?_⟩
  rw [hacc, keyOf]
  congr 1
  by_cases hleaf : leafAt t nid = true
  · by_cases hlink : linkAt t nid = 0
    · rw [if_neg (fun hc => hc.2 hlink), if_pos hleaf, hlink, extractSuffix_zero t hw.tail0]
    · rw [if_pos ⟨hleaf, hlink⟩, if_pos hleaf]
      have hll := hw.leaf_link nid hn (hw.term_used nid hn hterm) hleaf hlink
      rw [accessSuffix, extractSuffix]
      by_cases hbm : t.bin_mode = true
      · rw [if_pos hbm, if_pos hbm, if_pos hlink]
        exact accInlineBin_eq t (linkAt t nid)
      · rw [if_neg hbm, if_neg hbm]
        have hbm' : t.bin_mode = false := by simpa using hbm
        exact accInlineText_eq t (linkAt t nid) (hll.2.1 hbm')
  · rw [if_neg (fun hc => hleaf hc.1), if_neg hleaf]

theorem mem_keysOf (t : Trie) (d : List Nat) (u : List Bool) (hw : WFp t d u) (k : List Nat) :
    k ∈ keysOf t ↔ ∃ nid, nid < t.check.length ∧ usedAt u nid = true ∧
      terminalAt t nid = true ∧ k = keyOf t nid := by
  constructor
  · intro hk
    rw [keysOf, List.mem_map] at hk
    obtain ⟨id, hid, hkid⟩ := hk
    rw [List.mem_range] at hid
    have hidc : id < t.terminal.count true := by rw [← hw.nk]; exact hid
    obtain ⟨hsl, hsv, hsr⟩ := selectL_spec t.terminal id hidc
    have hsl' : selectL t.terminal id < t.check.length := by rw [← hw.term_len]; exact hsl
    refine ⟨selectL t.terminal id, hsl', hw.term_used _ hsl' hsv, hsv, ?_⟩
    obtain ⟨-, hacc⟩ := keyOf_access t d u hw (selectL t.terminal id) hsl' hsv
    have hkey : toKeyId t (selectL t.terminal id) = id := hsr
    rw [← hkid, ← hacc, hkey]
  · rintro ⟨nid, hn, hu2, hterm, rfl⟩
    obtain ⟨hlt, hacc⟩ := keyOf_access t d u hw nid hn hterm
    rw [keysOf, List.mem_map]
    exact ⟨toKeyId t nid, List.mem_range.mpr hlt, hacc⟩

/-! ### Ancestors and key locality -/

theorem take_getLastD (l : List Nat) (h : l ≠ []) :
    l = l.take (l.length - 1) ++ [l.getLastD 0] := by
  have h1 : l.getLastD 0 = l.getLast h := by
    rw [List.getLastD_eq_getLast?, List.getLast?_eq_getLast l h]
    rfl
  rw [h1, ← List.dropLast_eq_take, List.dropLast_append_getLast]

theorem prefix_take_eq (a c : List Nat) (m : Nat) (ha : a <+: c) (hm : m ≤ a.length) :
    c.take m = a.take m := by
  obtain ⟨rest, rfl⟩ := ha
  exact List.take_append_of_le_length hm

theorem take_succ_getD (l : List Nat) (j : Nat) (hj : j < l.length) :
    l.take (j + 1) = l.take j ++ [l.getD j 0] := by
  rw [List.take_succ, List.getElem?_eq_getElem hj, List.getD_eq_getElem l 0 hj]
  rfl

theorem ancestor_at (t : Trie) (d : List Nat) (u : List Bool) (hw : WFp t d u) :
    ∀ k n j, dAt d n ≤ k → n < t.check.length → usedAt u n = true →
      j ≤ (pathOf t n).length →
      ∃ a, a < t.check.length ∧ usedAt u a = true ∧ pathOf t a = (pathOf t n).take j := by
  intro k
  induction k with
  | zero =>
    intro n j hk hn hu2 hj
    by_cases hj2 : j = (pathOf t n).length
    · exact ⟨n, hn, hu2, by rw [hj2, List.take_length]⟩
    · exfalso
      have hjlt : j < (pathOf t n).length := by omega
      have hne : pathOf t n ≠ [] := by
        intro hnil
        rw [hnil] at hjlt
        simp at hjlt
      have hn0 : n ≠ 0 := by
        intro h0
        rw [h0, pathOf_zero t d u hw] at hne
        exact hne rfl
      have hp := hw.parent n hn hu2 (Nat.pos_of_ne_zero hn0)
      omega
  | succ k ih =>
    intro n j hk hn hu2 hj
    by_cases hj2 : j = (pathOf t n).length
    · exact ⟨n, hn, hu2, by rw [hj2, List.take_length]⟩
    · have hjlt : j < (pathOf t n).length := by omega
      have hne : pathOf t n ≠ [] := by
        intro hnil
        rw [hnil] at hjlt
        simp at hjlt
      have hn0 : n ≠ 0 := by
        intro h0
        rw [h0, pathOf_zero t d u hw] at hne
        exact hne rfl
      have hp := hw.parent n hn hu2 (Nat.pos_of_ne_zero hn0)
      have hstep := pathOf_step t d u hw n hn hu2 (Nat.pos_of_ne_zero hn0)
      have hplen : (pathOf t n).length = (pathOf t (checkAt t n)).length + 1 := by
        rw [hstep]
        simp
      obtain ⟨a, ha1, ha2, ha3⟩ := ih (checkAt t n) j (by omega) hp.1 hp.2.1 (by omega)
      refine ⟨a, ha1, ha2, ?_⟩
      rw [ha3, hstep, List.take_append_of_le_length (by omega)]

theorem key_node_shallow (t : Trie) (d : List Nat) (u : List Bool) (hw : WFp t d u)
    (p : List Nat) (node pos : Nat) (hpos : pos ≤ p.length)
    (hn : node < t.check.length) (hu : usedAt u node = true)
    (hpath : pathOf t node = p.take pos)
    (nid : Nat) (hnid : nid < t.check.length) (hterm : terminalAt t nid = true)
    (hpk : p <+: keyOf t nid)
    (hj : (pathOf t nid).length ≤ pos) (hjlt : (pathOf t nid).length < p.length) :
    nid = node ∧ (pathOf t nid).length = pos ∧ leafAt t nid = true := by
  have hus : usedAt u nid = true := hw.term_used nid hnid hterm
  have hpkey : pathOf t nid <+: keyOf t nid := path_prefix_keyOf t nid
  have hprefp : pathOf t nid <+: p :=
    List.prefix_of_prefix_length_le hpkey hpk (by omega)
  have hpj : pathOf t nid = p.take (pathOf t nid).length :=
    List.prefix_iff_eq_take.mp hprefp
  have hleaf : leafAt t nid = true := by
    by_contra hnl
    have hnl' : leafAt t nid = false := by simpa using hnl
    have hkeq : keyOf t nid = pathOf t nid := keyOf_nonleaf t nid hnl'
    have hlen := hpk.length_le
    rw [hkeq] at hlen
    omega
  have hplen : (pathOf t node).length = pos := by
    rw [hpath, List.length_take]
    omega
  rcases Nat.lt_or_ge (pathOf t nid).length pos with hlt | hge
  · exfalso
    obtain ⟨b, hb1, hb2, hb3⟩ := ancestor_at t d u hw (dAt d node) node
      ((pathOf t nid).length + 1) (le_refl _) hn hu (by omega)
    have hbp : pathOf t b = p.take ((pathOf t nid).length + 1) := by
      rw [hb3, hpath, List.take_take]
      congr 1
      omega
    have hbp2 : pathOf t b =
        p.take (pathOf t nid).length ++ [p.getD (pathOf t nid).length 0] := by
      rw [hbp, take_succ_getD p _ (by omega)]
    have hbne : pathOf t b ≠ [] := by
      rw [hbp2]
      simp
    have hb0 : b ≠ 0 := by
      intro h0
      rw [h0, pathOf_zero t d u hw] at hbne
      exact hbne rfl
    have hstep := pathOf_step t d u hw b hb1 hb2 (Nat.pos_of_ne_zero hb0)
    have hinj := List.append_inj' (hstep.symm.trans hbp2) rfl
    have hpar := hw.parent b hb1 hb2 (Nat.pos_of_ne_zero hb0)
    have hcb : checkAt t b = nid := by
      apply pathOf_inj t d u hw (dAt d (checkAt t b)) _ _ (le_refl _) hpar.1 hnid hpar.2.1 hus
      rw [hinj.1, ← hpj]
    exact leaf_no_child t d u hw nid b hnid hus hleaf hcb
  · have hjeq : (pathOf t nid).length = pos := by omega
    have hnn : nid = node := by
      apply pathOf_inj t d u hw (dAt d nid) _ _ (le_refl _) hnid hn hus hu
      rw [hpj, hjeq, ← hpath]
    exact ⟨hnn, hjeq, hleaf⟩

theorem key_node_deep (t : Trie) (d : List Nat) (u : List Bool) (hw : WFp t d u)
    (p : List Nat) (node pos : Nat) (hpos : pos < p.length)
    (hn : node < t.check.length) (hu : usedAt u node = true)
    (hpath : pathOf t node = p.take pos)
    (nid : Nat) (hnid : nid < t.check.length) (hterm : terminalAt t nid = true)
    (hpk : p <+: keyOf t nid) (hj : pos < (pathOf t nid).length) :
    ∃ a, a < t.check.length ∧ usedAt u a = true ∧ checkAt t a = node ∧
      edge t node a = p.getD pos 0 := by
  have hus : usedAt u nid = true := hw.term_used nid hnid hterm
  have hpkey : pathOf t nid <+: keyOf t nid := path_prefix_keyOf t nid
  have htake : (pathOf t nid).take (pos + 1) = p.take (pos + 1) := by
    have h1 : (keyOf t nid).take (pos + 1) = (pathOf t nid).take (pos + 1) :=
      prefix_take_eq _ _ _ hpkey (by omega)
    have h2 : (keyOf t nid).take (pos + 1) = p.take (pos + 1) :=
      prefix_take_eq _ _ _ hpk (by omega)
    rw [← h1, h2]
  obtain ⟨a, ha1, ha2, ha3⟩ := ancestor_at t d u hw (dAt d nid) nid (pos + 1)
    (le_refl _) hnid hus (by omega)
  have hap : pathOf t a = p.take pos ++ [p.getD pos 0] := by
    rw [ha3, htake, take_succ_getD p pos hpos]
  have hane : pathOf t a ≠ [] := by
    rw [hap]
    simp
  have ha0 : a ≠ 0 := by
    intro h0
    rw [h0, pathOf_zero t d u hw] at hane
    exact hane rfl
  have hstep := pathOf_step t d u hw a ha1 ha2 (Nat.pos_of_ne_zero ha0)
  have hinj := List.append_inj' (hstep.symm.trans hap) rfl
  have hpar := hw.parent a ha1 ha2 (Nat.pos_of_ne_zero ha0)
  have hca : checkAt t a = node := by
    apply pathOf_inj t d u hw (dAt d (checkAt t a)) _ _ (le_refl _) hpar.1 hn hpar.2.1 hu
    rw [hinj.1, ← hpath]
  refine ⟨a, ha1, ha2, hca, ?_⟩
  have h6 := hinj.2
  rw [hca] at h6
  simp only [List.cons.injEq, and_true] at h6
  exact h6

/-! ### Properties of the subtree sequences -/

theorem subtreeSeq_path_prefix (t : Trie) :
    ∀ fuel v path q, q ∈ subtreeSeqF t fuel v path → path <+: q.1 := by
  intro fuel
  induction fuel with
  | zero =>
    intro v path q hq
    simp [subtreeSeqF] at hq
  | succ m ih =>
    intro v path q hq
    simp only [subtreeSeqF] at hq
    by_cases hleaf : leafAt t v = true
    · rw [if_pos hleaf, List.mem_singleton] at hq
      subst hq
      exact List.prefix_append _ _
    · rw [if_neg hleaf, List.mem_append] at hq
      rcases hq with hq | hq
      · by_cases hterm : terminalAt t v = true
        · rw [if_pos hterm, List.mem_singleton] at hq
          subst hq
          exact List.prefix_refl _
        · rw [if_neg hterm] at hq
          simp at hq
      · rw [List.mem_flatMap] at hq
        obtain ⟨bc, hbc, hq2⟩ := hq
        exact (List.prefix_append path [bc.1]).trans (ih bc.2 (path ++ [bc.1]) q hq2)

theorem lexLt_of_proper_prefix (a : List Nat) :
    ∀ b, a <+: b → a ≠ b → lexLt a b := by
  induction a with
  | nil =>
    intro b hpre hne
    cases b with
    | nil => exact absurd rfl hne
    | cons y b2 => exact List.Lex.nil
  | cons x a2 ih =>
    intro b hpre hne
    obtain ⟨rest, rfl⟩ := hpre
    show List.Lex (· < ·) (x :: a2) (x :: (a2 ++ rest))
    apply List.Lex.cons
    apply ih (a2 ++ rest) (List.prefix_append _ _)
    intro hcon
    apply hne
    rw [List.cons_append, ← hcon]

theorem lexLt_append_lt (s : List Nat) (b1 b2 : Nat) (x y : List Nat) (h : b1 < b2) :
    lexLt (s ++ b1 :: x) (s ++ b2 :: y) := by
  induction s with
  | nil => exact List.Lex.rel h
  | cons z s2 ih => exact List.Lex.cons ih

theorem childrenOf_sorted (t : Trie) (d : List Nat) (u : List Bool) (hw : WFp t d u)
    (v : Nat) : (childrenOf t v).Pairwise fun x y => x.1 < y.1 := by
  rw [childrenOf]
  refine List.Pairwise.filterMap _ ?_ hw.alpha_sorted
  intro a b hab x hx y hy
  dsimp only at hx hy
  split at hx
  · split at hy
    · rw [Option.mem_def] at hx hy
      injection hx with h1
      injection hy with h2
      rw [← h1, ← h2]
      exact hab
    · simp at hy
  · simp at hx

theorem flatMap_sorted_aux (t : Trie) (d : List Nat) (u : List Bool) (hw : WFp t d u)
    (m v : Nat) (hv : v < t.check.length) (hu2 : usedAt u v = true)
    (hIH : ∀ bc ∈ childrenOf t v,
      ((subtreeSeqF t m bc.2 (pathOf t bc.2)).map Prod.fst).Pairwise lexLt) :
    ∀ cs : List (Nat × Nat), cs.Pairwise (fun x y => x.1 < y.1) →
      (∀ bc ∈ cs, bc ∈ childrenOf t v) →
      (cs.flatMap fun bc =>
        (subtreeSeqF t m bc.2 (pathOf t v ++ [bc.1])).map Prod.fst).Pairwise lexLt := by
  intro cs
  induction cs with
  | nil =>
    intro _ _
    simp
  | cons c cs2 ihc =>
    intro hps hsub
    rw [List.flatMap_cons, List.pairwise_append]
    have hcmem := hsub c (List.mem_cons_self _ _)
    obtain ⟨hcN, hcU, hcd, hcpath, -⟩ := childrenOf_parent_d t d u hw v hv hu2 c hcmem
    refine ⟨?_, ?_, ?_⟩
    · rw [← hcpath]
      exact hIH c hcmem
    · exact ihc (List.Pairwise.of_cons hps) (fun bc h => hsub bc (List.mem_cons_of_mem _ h))
    · intro x hx y hy
      rw [List.mem_flatMap] at hy
      obtain ⟨c2, hc2, hy2⟩ := hy
      have hcc2 : c.1 < c2.1 := (List.pairwise_cons.mp hps).1 c2 hc2
      rw [List.mem_map] at hx hy2
      obtain ⟨qx, hqx, hqx2⟩ := hx
      obtain ⟨qy, hqy, hqy2⟩ := hy2
      have hxp : pathOf t v ++ [c.1] <+: x := by
        rw [← hqx2]
        exact subtreeSeq_path_prefix t m c.2 _ qx hqx
      have hyp : pathOf t v ++ [c2.1] <+: y := by
        rw [← hqy2]
        exact subtreeSeq_path_prefix t m c2.2 _ qy hqy
      obtain ⟨rx, hrx⟩ := hxp
      obtain ⟨ry, hry⟩ := hyp
      rw [← hrx, ← hry, List.append_assoc, List.append_assoc]
      exact lexLt_append_lt (pathOf t v) c.1 c2.1 rx ry hcc2

theorem subtreeSeq_sorted (t : Trie) (d : List Nat) (u : List Bool) (hw : WFp t d u) :
    ∀ fuel v, v < t.check.length → usedAt u v = true →
      t.check.length - dAt d v ≤ fuel →
      ((subtreeSeqF t fuel v (pathOf t v)).map Prod.fst).Pairwise lexLt := by
  intro fuel
  induction fuel with
  | zero =>
    intro v hv hu2 hf
    have := hw.d_lt v hv
    omega
  | succ m ih =>
    intro v hv hu2 hf
    simp only [subtreeSeqF]
    by_cases hleaf : leafAt t v = true
    · rw [if_pos hleaf]
      simp
    · rw [if_neg hleaf]
      rw [List.map_append, List.pairwise_append]
      refine ⟨?_, ?_, ?_⟩
      · by_cases hterm : terminalAt t v = true
        · rw [if_pos hterm]
          simp
        · rw [if_neg hterm]
          simp
      · rw [List.map_flatMap]
        refine flatMap_sorted_aux t d u hw m v hv hu2 ?_ (childrenOf t v)
          (childrenOf_sorted t d u hw v) (fun bc h => h)
        intro bc hbc
        obtain ⟨hcN, hcU, hcd, -, -⟩ := childrenOf_parent_d t d u hw v hv hu2 bc hbc
        exact ih bc.2 hcN hcU (by omega)
      · intro x hx y hy
        by_cases hterm : terminalAt t v = true
        · rw [if_pos hterm] at hx
          simp only [List.map_cons, List.map_nil, List.mem_singleton] at hx
          subst hx
          rw [List.map_flatMap, List.mem_flatMap] at hy
          obtain ⟨bc, hbc, hy2⟩ := hy
          rw [List.mem_map] at hy2
          obtain ⟨qy, hqy, hqy2⟩ := hy2
          have hyp : pathOf t v ++ [bc.1] <+: y := by
            rw [← hqy2]
            exact subtreeSeq_path_prefix t m bc.2 _ qy hqy
          obtain ⟨ry, hry⟩ := hyp
          rw [← hry]
          apply lexLt_of_proper_prefix _ _
            ((List.prefix_append _ _).trans (List.prefix_append _ _))
          intro hcon
          have hlen := congrArg List.length hcon
          rw [List.length_append, List.length_append, List.length_singleton] at hlen
          omega
        · rw [if_neg hterm] at hx
          simp at hx

theorem subtreeSeq_sound (t : Trie) (d : List Nat) (u : List Bool) (hw : WFp t d u) :
    ∀ fuel v, v < t.check.length → usedAt u v = true →
      t.check.length - dAt d v ≤ fuel →
      ∀ q ∈ subtreeSeqF t fuel v (pathOf t v),
        ∃ nid, nid < t.check.length ∧ usedAt u nid = true ∧ terminalAt t nid = true ∧
          pathOf t v <+: pathOf t nid ∧ q = (keyOf t nid, toKeyId t nid) := by
  intro fuel
  induction fuel with
  | zero =>
    intro v hv hu2 hf
    have := hw.d_lt v hv
    omega
  | succ m ih =>
    intro v hv hu2 hf q hq
    simp only [subtreeSeqF] at hq
    by_cases hleaf : leafAt t v = true
    · rw [if_pos hleaf, List.mem_singleton] at hq
      refine ⟨v, hv, hu2, hw.leaf_term v hv hu2 hleaf, List.prefix_refl _, ?_⟩
      rw [hq, keyOf, if_pos hleaf]
    · rw [if_neg hleaf, List.mem_append] at hq
      have hleaf2 : leafAt t v = false := by simpa using hleaf
      rcases hq with hq | hq
      · by_cases hterm : terminalAt t v = true
        · rw [if_pos hterm, List.mem_singleton] at hq
          refine ⟨v, hv, hu2, hterm, List.prefix_refl _, ?_⟩
          rw [hq, keyOf_nonleaf t v hleaf2]
        · rw [if_neg hterm] at hq
          simp at hq
      · rw [List.mem_flatMap] at hq
        obtain ⟨bc, hbc, hq2⟩ := hq
        obtain ⟨hcN, hcU, hcd, hcpath, -⟩ := childrenOf_parent_d t d u hw v hv hu2 bc hbc
        rw [← hcpath] at hq2
        obtain ⟨nid, h1, h2, h3, h4, h5⟩ := ih bc.2 hcN hcU (by omega) q hq2
        have h6 : pathOf t v <+: pathOf t bc.2 := by
          rw [hcpath]
          exact List.prefix_append _ _
        exact ⟨nid, h1, h2, h3, h6.trans h4, h5⟩

theorem subtreeSeq_complete (t : Trie) (d : List Nat) (u : List Bool) (hw : WFp t d u) :
    ∀ fuel v, v < t.check.length → usedAt u v = true →
      t.check.length - dAt d v ≤ fuel →
      ∀ nid, nid < t.check.length → usedAt u nid = true → terminalAt t nid = true →
        pathOf t v <+: pathOf t nid →
        (keyOf t nid, toKeyId t nid) ∈ subtreeSeqF t fuel v (pathOf t v) := by
  intro fuel
  induction fuel with
  | zero =>
    intro v hv hu2 hf
    have := hw.d_lt v hv
    omega
  | succ m ih =>
    intro v hv hu2 hf nid hnid hnu hterm hpre
    by_cases heq : pathOf t v = pathOf t nid
    · have hveq : nid = v :=
        pathOf_inj t d u hw (dAt d nid) nid v (le_refl _) hnid hv hnu hu2 heq.symm
      subst hveq
      simp only [subtreeSeqF]
      by_cases hleaf : leafAt t nid = true
      · rw [if_pos hleaf, keyOf, if_pos hleaf]
        exact List.mem_singleton.mpr rfl
      · have hleaf2 : leafAt t nid = false := by simpa using hleaf
        rw [if_neg hleaf, keyOf_nonleaf t nid hleaf2]
        apply List.mem_append_left
        rw [if_pos hterm]
        exact List.mem_singleton.mpr rfl
    · have hlt : (pathOf t v).length < (pathOf t nid).length := by
        rcases Nat.lt_or_ge (pathOf t v).length (pathOf t nid).length with h | h
        · exact h
        · exact absurd (hpre.eq_of_length_le h) heq
      obtain ⟨b, hb1, hb2, hb3⟩ := ancestor_at t d u hw (dAt d nid) nid
        ((pathOf t v).length + 1) (le_refl _) hnid hnu (by omega)
      have htkj : (pathOf t nid).take (pathOf t v).length = pathOf t v :=
        (List.prefix_iff_eq_take.mp hpre).symm
      have hbp : pathOf t b =
          pathOf t v ++ [(pathOf t nid).getD (pathOf t v).length 0] := by
        rw [hb3, take_succ_getD _ _ (by omega), htkj]
      have hbne : pathOf t b ≠ [] := by
        rw [hbp]
        simp
      have hb0 : b ≠ 0 := by
        intro h0
        rw [h0, pathOf_zero t d u hw] at hbne
        exact hbne rfl
      have hstep := pathOf_step t d u hw b hb1 hb2 (Nat.pos_of_ne_zero hb0)
      have hinj := List.append_inj' (hstep.symm.trans hbp) rfl
      have hpar := hw.parent b hb1 hb2 (Nat.pos_of_ne_zero hb0)
      have hcb : checkAt t b = v := by
        apply pathOf_inj t d u hw (dAt d (checkAt t b)) _ _ (le_refl _) hpar.1 hv
          hpar.2.1 hu2
        rw [hinj.1]
      have hleafv : leafAt t v = false := by
        by_cases h : leafAt t v = true
        · exact (leaf_no_child t d u hw v b hv hu2 h hcb).elim
        · simpa using h
      obtain ⟨hmem, hedge_mem⟩ := child_mem_childrenOf t d u hw v b hv hu2 hcb
      have hedge : edge t v b = (pathOf t nid).getD (pathOf t v).length 0 := by
        have h6 := hinj.2
        rw [hcb] at h6
        simp only [List.cons.injEq, and_true] at h6
        exact h6
      simp only [subtreeSeqF]
      rw [if_neg (by simp [hleafv])]
      apply List.mem_append_right
      rw [List.mem_flatMap]
      refine ⟨(edge t v b, b), hmem, ?_⟩
      have harg : pathOf t v ++ [edge t v b] = pathOf t b := by
        rw [hbp, hedge]
      rw [harg]
      refine ih b hb1 hb2 ?_ nid hnid hnu hterm ?_
      · have hd : dAt d v < dAt d b := by
          have h7 := hpar.2.2.1
          rw [hcb] at h7
          exact h7
        have := hw.d_lt b hb1
        omega
      · rw [hb3]
        exact List.take_prefix _ _

/-! ### The stack loop of the predictive iterator -/

theorem stackSpec_cons (t : Trie) (f : Nat × Nat × Nat) (rest : List (Nat × Nat × Nat)) :
    stackSpec t (f :: rest) = frameSpec t f ++ stackSpec t rest := by
  simp [stackSpec]

theorem stackSpec_push (t : Trie) (node dep : Nat) (rest : List (Nat × Nat × Nat)) :
    stackSpec t (pushChildren t node dep rest) =
      ((childrenOf t node).flatMap fun bc => frameSpec t (dep + 1, bc.1, bc.2)) ++
        stackSpec t rest := by
  rw [pushChildren_eq, stackSpec, List.flatMap_append, List.flatMap_map]
  rfl

theorem StackChain_mono (t : Trie) (u : List Bool) :
    ∀ stack prev prev2, StackChain t u stack prev → prev <+: prev2 →
      StackChain t u stack prev2 := by
  intro stack prev prev2 hc hp
  cases stack with
  | nil => trivial
  | cons f rest =>
    obtain ⟨h1, h2, h3⟩ := hc
    exact ⟨h1, h2.trans hp, h3⟩

theorem StackChain_push (t : Trie) (d : List Nat) (u : List Bool) (hw : WFp t d u)
    (node dep : Nat) (rest : List (Nat × Nat × Nat))
    (hn : node < t.check.length) (hu2 : usedAt u node = true)
    (hdep : dep = (pathOf t node).length)
    (hchain : StackChain t u rest (pathOf t node)) :
    StackChain t u (pushChildren t node dep rest) (pathOf t node) := by
  rw [pushChildren_eq]
  suffices haux : ∀ cs : List (Nat × Nat), (∀ bc ∈ cs, bc ∈ childrenOf t node) →
      StackChain t u ((cs.map fun bc => (dep + 1, bc.1, bc.2)) ++ rest) (pathOf t node) by
    exact haux (childrenOf t node) (fun bc h => h)
  intro cs
  induction cs with
  | nil =>
    intro _
    exact hchain
  | cons c cs2 ihc =>
    intro hsub
    have hcmem := hsub c (List.mem_cons_self _ _)
    obtain ⟨hcN, hcU, hcd, hcpath, -⟩ := childrenOf_parent_d t d u hw node hn hu2 c hcmem
    have htk : (pathOf t c.2).take dep = pathOf t node := by
      rw [hcpath, hdep, List.take_left]
    have hok : FrameOK t u (dep + 1, c.1, c.2) := by
      refine ⟨Nat.succ_pos _, hcN, hcU, ?_, ?_⟩
      · rw [hcpath, List.length_append, List.length_singleton, hdep]
      · show pathOf t c.2 = (pathOf t c.2).take (dep + 1 - 1) ++ [c.1]
        have h1 : dep + 1 - 1 = dep := rfl
        rw [h1, htk, hcpath]
    simp only [List.map_cons, List.cons_append]
    refine ⟨hok, ?_, ?_⟩
    · show (pathOf t c.2).take (dep + 1 - 1) <+: pathOf t node
      have h1 : dep + 1 - 1 = dep := rfl
      rw [h1, htk]
    · show StackChain t u ((cs2.map fun bc => (dep + 1, bc.1, bc.2)) ++ rest) (pathOf t c.2)
      apply StackChain_mono t u _ (pathOf t node) _
        (ihc (fun bc h => hsub bc (List.mem_cons_of_mem _ h)))
      rw [hcpath]
      exact List.prefix_append _ _

theorem predLoop_spec (t : Trie) (d : List Nat) (u : List Bool) (hw : WFp t d u) :
    ∀ fuel stack buf idv, StackChain t u stack buf → stackWeight t stack < fuel →
      (stackSpec t stack = [] →
        ∃ st2, predLoop t fuel stack buf idv = some (false, st2)) ∧
      (∀ q qs, stackSpec t stack = q :: qs →
        ∃ st2, predLoop t fuel stack buf idv = some (true, st2) ∧
          st2.beginFl = false ∧ st2.endFl = false ∧ st2.buf = q.1 ∧ st2.idv = q.2 ∧
          StackChain t u st2.stack st2.buf ∧ stackSpec t st2.stack = qs ∧
          stackWeight t st2.stack < stackWeight t stack) := by
  intro fuel
  induction fuel with
  | zero =>
    intro stack buf idv hchain hwt
    omega
  | succ W ihW =>
    intro stack buf idv hchain hwt
    cases stack with
    | nil =>
      constructor
      · intro hspec
        exact ⟨⟨false, true, [], buf, idv⟩, by simp [predLoop]⟩
      · intro q qs hspec
        simp [stackSpec] at hspec
    | cons f rest =>
      obtain ⟨dp, c, node⟩ := f
      obtain ⟨hok, hpre, hcrest⟩ := hchain
      have hbuf2 : bufAdj buf dp c = pathOf t node :=
        bufAdj_frame t u (dp, c, node) buf hok hpre
      have hnode_lt : node < t.check.length := hok.2.1
      have hnode_u : usedAt u node = true := hok.2.2.1
      have hco : stackWeight t ((dp, c, node) :: rest) =
          subtreeSizeF t t.check.length node + stackWeight t rest :=
        stackWeight_cons t (dp, c, node) rest
      have hszpos := subtreeSizeF_pos t t.check.length node
      simp only [predLoop]
      rw [hbuf2]
      by_cases hleaf : leafAt t node = true
      · rw [if_pos hleaf]
        constructor
        · intro hspec
          rw [stackSpec_cons, frameSpec_leaf t d u hw (dp, c, node) hleaf] at hspec
          simp at hspec
        · intro q qs hspec
          rw [stackSpec_cons, frameSpec_leaf t d u hw (dp, c, node) hleaf,
            List.singleton_append] at hspec
          injection hspec with hq hqs
          refine ⟨⟨false, false, rest,
            pathOf t node ++ extractSuffix t (linkAt t node), toKeyId t node⟩,
            rfl, rfl, rfl, ?_, ?_, ?_, hqs, ?_⟩
          · rw [← hq]
          · rw [← hq]
          · exact StackChain_mono t u rest (pathOf t node) _ hcrest
              (List.prefix_append _ _)
          · show stackWeight t rest < stackWeight t ((dp, c, node) :: rest)
            rw [hco]
            omega
      · have hleaf2 : leafAt t node = false := by simpa using hleaf
        rw [if_neg hleaf]
        have hchain2 : StackChain t u (pushChildren t node dp rest) (pathOf t node) :=
          StackChain_push t d u hw node dp rest hnode_lt hnode_u hok.2.2.2.1 hcrest
        have hwt2 : stackWeight t (pushChildren t node dp rest) + 1 =
            subtreeSizeF t t.check.length node + stackWeight t rest :=
          stackWeight_push t d u hw node dp rest hnode_lt hnode_u hleaf2
        have hspec_eq : stackSpec t ((dp, c, node) :: rest) =
            (if terminalAt t node then [(pathOf t node, toKeyId t node)] else []) ++
              stackSpec t (pushChildren t node dp rest) := by
          rw [stackSpec_cons, frameSpec_nonleaf t d u hw (dp, c, node) hnode_lt hnode_u hleaf2,
            stackSpec_push, List.append_assoc]
        by_cases hterm : terminalAt t node = true
        · rw [if_pos hterm]
          constructor
          · intro hspec
            rw [hspec_eq, if_pos hterm] at hspec
            simp at hspec
          · intro q qs hspec
            rw [hspec_eq, if_pos hterm, List.singleton_append] at hspec
            injection hspec with hq hqs
            refine ⟨⟨false, false, pushChildren t node dp rest,
              pathOf t node, toKeyId t node⟩, rfl, rfl, rfl, ?_, ?_, hchain2, hqs, ?_⟩
            · rw [← hq]
            · rw [← hq]
            · show stackWeight t (pushChildren t node dp rest) <
                stackWeight t ((dp, c, node) :: rest)
              rw [hco]
              omega
        · rw [if_neg hterm]
          have hrec := ihW (pushChildren t node dp rest) (pathOf t node) idv hchain2
            (by omega)
          have hspec_eq2 : stackSpec t ((dp, c, node) :: rest) =
              stackSpec t (pushChildren t node dp rest) := by
            rw [hspec_eq, if_neg hterm, List.nil_append]
          constructor
          · intro hspec
            rw [hspec_eq2] at hspec
            exact hrec.1 hspec
          · intro q qs hspec
            rw [hspec_eq2] at hspec
            obtain ⟨st2, h1, h2, h3, h4, h5, h6, h7, h8⟩ := hrec.2 q qs hspec
            refine ⟨st2, h1, h2, h3, h4, h5, h6, h7, ?_⟩
            rw [hco]
            omega

theorem runLoop_spec (t : Trie) (d : List Nat) (u : List Bool) (hw : WFp t d u)
    (kb : Nat → Nat) (len : Nat) :
    ∀ fuel st, st.beginFl = false → st.endFl = false →
      StackChain t u st.stack st.buf → stackWeight t st.stack + 1 < fuel →
      runPredF t kb len fuel st = some (stackSpec t st.stack) := by
  intro fuel
  induction fuel with
  | zero =>
    intro st _ _ _ h
    omega
  | succ F ihF =>
    intro st hbg hed hchain hwt
    have hnext : nextPredictive t kb len F st = predLoop t F st.stack st.buf st.idv := by
      rw [nextPredictive, if_neg (by simp [hed]), if_neg (by simp [hbg])]
    have hps := predLoop_spec t d u hw F st.stack st.buf st.idv hchain (by omega)
    cases hsp : stackSpec t st.stack with
    | nil =>
      obtain ⟨st2, h1⟩ := hps.1 hsp
      simp only [runPredF, hnext, h1, hsp]
    | cons q qs =>
      obtain ⟨st2, h1, h2, h3, h4, h5, h6, h7, h8⟩ := hps.2 q qs hsp
      have hrec := ihF st2 h2 h3 h6 (by omega)
      simp only [runPredF, hnext, h1, hrec, h7, h4, h5]

/-! ### The mid-input matching loops of the predictive iterator -/

theorem decodeText_decomp (t : Trie) :
    ∀ s tp, s <+: decodeText t tp → decodeText t tp = s ++ decodeText t (tp + s.length) := by
  intro s
  induction s with
  | nil =>
    intro tp _
    simp
  | cons x s2 ih =>
    intro tp hpre
    have hne : decodeText t tp ≠ [] := by
      intro h0
      rw [h0, List.prefix_nil] at hpre
      exact List.cons_ne_nil _ _ hpre
    have h0 : tailAt t tp ≠ 0 := fun hz => hne ((decodeText_nil_iff t tp).mpr hz)
    have hcons := decodeText_cons t tp h0
    rw [hcons] at hpre
    rw [List.cons_prefix_cons] at hpre
    obtain ⟨hx, hs2⟩ := hpre
    have hih := ih (tp + 1) hs2
    have harith : tp + 1 + s2.length = tp + (s2.length + 1) := by omega
    rw [hcons, hih, ← hx, harith]
    rfl

theorem predTextMatch_spec (t : Trie) (p : List Nat) :
    ∀ fuel pos tp buf, fuel = p.length - pos → pos < p.length →
      (p.drop pos <+: decodeText t tp →
        predTextMatchF t (kbOf p) p.length fuel pos tp buf =
          .hitExt (buf ++ p.drop pos) (tp + (p.length - pos))) ∧
      (¬ p.drop pos <+: decodeText t tp →
        ∃ b, predTextMatchF t (kbOf p) p.length fuel pos tp buf = .fail b) := by
  intro fuel
  induction fuel with
  | zero =>
    intro pos tp buf hf hpos
    exact absurd hf (by omega)
  | succ m ih =>
    intro pos tp buf hf hpos
    simp only [predTextMatchF]
    have hdk := drop_kb_cons p pos hpos
    by_cases h0 : tailAt t tp = 0
    · rw [if_pos (Or.inr h0)]
      constructor
      · intro hpre
        exfalso
        rw [(decodeText_nil_iff t tp).mpr h0, List.prefix_nil, hdk] at hpre
        exact List.cons_ne_nil _ _ hpre
      · intro _
        exact ⟨buf, rfl⟩
    · by_cases hkb : kbOf p pos = tailAt t tp
      · rw [if_neg (by simp [hkb, h0])]
        have hcons := decodeText_cons t tp h0
        have hiff : (p.drop pos <+: decodeText t tp) ↔
            (p.drop (pos + 1) <+: decodeText t (tp + 1)) := by
          rw [hdk, hcons, List.cons_prefix_cons]
          constructor
          · intro h
            exact h.2
          · intro h
            exact ⟨hkb, h⟩
        by_cases hlt : pos + 1 < p.length
        · rw [if_pos hlt]
          have hrec := ih (pos + 1) (tp + 1) (buf ++ [kbOf p pos]) (by omega) hlt
          constructor
          · intro hpre
            rw [hrec.1 (hiff.mp hpre)]
            congr 1
            · rw [List.append_assoc, List.singleton_append, ← hdk]
            · omega
          · intro hnp
            exact hrec.2 (fun hc => hnp (hiff.mpr hc))
        · rw [if_neg hlt]
          have hdrop1 : p.drop (pos + 1) = [] := List.drop_eq_nil_iff.mpr (by omega)
          have hdrop : p.drop pos = [kbOf p pos] := by
            rw [hdk, hdrop1]
          constructor
          · intro hpre
            rw [hdrop, (by omega : p.length - pos = 1)]
          · intro hnp
            exfalso
            apply hnp
            rw [hdrop, hcons, ← hkb]
            exact ⟨decodeText t (tp + 1), rfl⟩
      · rw [if_pos (Or.inl hkb)]
        constructor
        · intro hpre
          exfalso
          rw [hdk, decodeText_cons t tp h0, List.cons_prefix_cons] at hpre
          exact hkb hpre.1
        · intro _
          exact ⟨buf, rfl⟩

theorem predBinMatch_spec (t : Trie) (p : List Nat) :
    ∀ fuel pos tp buf, fuel = p.length - pos → pos < p.length →
      (∃ e, e < t.boundary.length ∧ tp ≤ e ∧ boundaryAt t e = true) →
      (p.drop pos = decodeBin t tp →
        predBinMatchF t (kbOf p) p.length fuel pos tp buf = .hitNow (buf ++ p.drop pos)) ∧
      (p.drop pos <+: decodeBin t tp → p.drop pos ≠ decodeBin t tp →
        predBinMatchF t (kbOf p) p.length fuel pos tp buf =
          .hitExt (buf ++ p.drop pos) (tp + (p.length - pos)) ∧
        (∃ e, e < t.boundary.length ∧ tp + (p.length - pos) ≤ e ∧ boundaryAt t e = true) ∧
        decodeBin t tp = p.drop pos ++ decodeBin t (tp + (p.length - pos))) ∧
      (¬ p.drop pos <+: decodeBin t tp →
        ∃ b, predBinMatchF t (kbOf p) p.length fuel pos tp buf = .fail b) := by
  intro fuel
  induction fuel with
  | zero =>
    intro pos tp buf hf hpos _
    exact absurd hf (by omega)
  | succ m ih =>
    intro pos tp buf hf hpos hbnd
    simp only [predBinMatchF]
    have hdk := drop_kb_cons p pos hpos
    by_cases hkb : kbOf p pos = tailAt t tp
    · rw [if_neg (by simp [hkb])]
      by_cases hb : boundaryAt t tp = true
      · rw [if_pos hb]
        have hdec : decodeBin t tp = [tailAt t tp] := decodeBin_boundary t tp hb
        by_cases hl : pos + 1 = p.length
        · rw [if_pos hl]
          have hdrop : p.drop pos = [kbOf p pos] := by
            rw [hdk, List.drop_eq_nil_iff.mpr (by omega)]
          refine ⟨?_, ?_, ?_⟩
          · intro heq
            rw [hdrop]
          · intro hpre hne
            exfalso
            apply hne
            rw [hdrop, hdec, hkb]
          · intro hnp
            exfalso
            apply hnp
            rw [hdrop, hdec, hkb]
        · rw [if_neg hl]
          refine ⟨?_, ?_, ?_⟩
          · intro heq
            exfalso
            have hc := congrArg List.length heq
            rw [List.length_drop, hdec] at hc
            simp at hc
            omega
          · intro hpre hne
            exfalso
            have hc := hpre.length_le
            rw [List.length_drop, hdec] at hc
            simp at hc
            omega
          · intro _
            exact ⟨buf ++ [kbOf p pos], rfl⟩
      · have hb2 : boundaryAt t tp = false := by simpa using hb
        rw [if_neg hb]
        obtain ⟨e, he1, he2, he3⟩ := hbnd
        have htplt : tp < t.boundary.length := by omega
        have hbnd2 : ∃ e2, e2 < t.boundary.length ∧ tp + 1 ≤ e2 ∧ boundaryAt t e2 = true := by
          refine ⟨e, he1, ?_, he3⟩
          rcases Nat.lt_or_ge tp e with h | h
          · omega
          · have he4 : tp = e := by omega
            rw [he4, he3] at hb2
            exact absurd hb2 (by simp)
        have hcons : decodeBin t tp = tailAt t tp :: decodeBin t (tp + 1) :=
          decodeBin_cons t tp hb2 htplt
        by_cases hlt : pos + 1 < p.length
        · rw [if_pos hlt]
          have hrec := ih (pos + 1) (tp + 1) (buf ++ [kbOf p pos]) (by omega) hlt hbnd2
          have harith : tp + 1 + (p.length - (pos + 1)) = tp + (p.length - pos) := by omega
          have happ : (buf ++ [kbOf p pos]) ++ p.drop (pos + 1) = buf ++ p.drop pos := by
            rw [List.append_assoc, List.singleton_append, ← hdk]
          refine ⟨?_, ?_, ?_⟩
          · intro heq
            rw [hdk, hcons] at heq
            injection heq with h1 h2
            rw [hrec.1 h2, happ]
          · intro hpre hne
            rw [hdk, hcons, List.cons_prefix_cons] at hpre
            have hpre2 : p.drop (pos + 1) <+: decodeBin t (tp + 1) := hpre.2
            have hne2 : p.drop (pos + 1) ≠ decodeBin t (tp + 1) := by
              intro hc
              apply hne
              rw [hdk, hcons, hkb, hc]
            obtain ⟨hres, hbnd3, hdecomp⟩ := hrec.2.1 hpre2 hne2
            refine ⟨?_, ?_, ?_⟩
            · rw [hres, happ, harith]
            · obtain ⟨e4, h4a, h4b, h4c⟩ := hbnd3
              exact ⟨e4, h4a, by omega, h4c⟩
            · rw [hcons, hdecomp, harith, hdk, hkb]
              rfl
          · intro hnp
            have hnp2 : ¬ p.drop (pos + 1) <+: decodeBin t (tp + 1) := by
              intro hc
              apply hnp
              rw [hdk, hcons, List.cons_prefix_cons]
              exact ⟨hkb, hc⟩
            exact hrec.2.2 hnp2
        · rw [if_neg hlt]
          have hdrop : p.drop pos = [kbOf p pos] := by
            rw [hdk, List.drop_eq_nil_iff.mpr (by omega)]
          have hlp : p.length - pos = 1 := by omega
          refine ⟨?_, ?_, ?_⟩
          · intro heq
            exfalso
            rw [hdrop, hcons] at heq
            injection heq with h1 h2
            exact decodeBin_ne_nil t (tp + 1) h2.symm
          · intro hpre hne
            refine ⟨?_, ?_, ?_⟩
            · rw [hdrop, hlp]
            · obtain ⟨e4, h4a, h4b, h4c⟩ := hbnd2
              exact ⟨e4, h4a, by omega, h4c⟩
            · rw [hlp, hcons, hdrop, hkb]
              rfl
          · intro hnp
            exfalso
            apply hnp
            rw [hdrop, hcons, hkb]
            exact ⟨decodeBin t (tp + 1), rfl⟩
    · rw [if_pos hkb]
      refine ⟨?_, ?_, ?_⟩
      · intro heq
        exfalso
        obtain ⟨r, hr⟩ := decodeBin_head t tp
        rw [hdk, hr] at heq
        injection heq with h1 h2
        exact hkb h1
      · intro hpre hne
        exfalso
        obtain ⟨r, hr⟩ := decodeBin_head t tp
        rw [hdk, hr, List.cons_prefix_cons] at hpre
        exact hkb hpre.1
      · intro _
        exact ⟨buf, rfl⟩

/-! ### The descent phase of the predictive iterator -/

theorem predDescend_spec (t : Trie) (d : List Nat) (u : List Bool) (hw : WFp t d u)
    (p : List Nat) (hp : ∀ b ∈ p, b ∈ t.alphabet) :
    ∀ fuel pos node buf, fuel = p.length - pos → pos ≤ p.length →
      node < t.check.length → usedAt u node = true →
      pathOf t node = p.take pos → buf = p.take pos →
      (∃ v, predDescendF t (kbOf p) p.length fuel pos node buf = .seed p v ∧
        v < t.check.length ∧ usedAt u v = true ∧ pathOf t v = p) ∨
      (∃ bufK L,
        predDescendF t (kbOf p) p.length fuel pos node buf = .hit bufK (toKeyId t L) ∧
        L < t.check.length ∧ usedAt u L = true ∧ leafAt t L = true ∧
        terminalAt t L = true ∧ bufK = keyOf t L ∧ p <+: bufK ∧
        (∀ nid, nid < t.check.length → usedAt u nid = true → terminalAt t nid = true →
          p <+: keyOf t nid → nid = L)) ∨
      (∃ b, predDescendF t (kbOf p) p.length fuel pos node buf = .fail b ∧
        ∀ nid, nid < t.check.length → usedAt u nid = true → terminalAt t nid = true →
          ¬ p <+: keyOf t nid) := by
  intro fuel
  induction fuel with
  | zero =>
    intro pos node buf hf hpos hn hu2 hpath hbuf
    left
    have hpl : pos = p.length := by omega
    refine ⟨node, ?_, hn, hu2, ?_⟩
    · show DescRes.seed buf node = DescRes.seed p node
      rw [hbuf, hpl, List.take_length]
    · rw [hpath, hpl, List.take_length]
  | succ m ih =>
    intro pos node buf hf hpos hn hu2 hpath hbuf
    have hposlt : pos < p.length := by omega
    simp only [predDescendF]
    by_cases hleaf : leafAt t node = true
    · rw [if_pos hleaf]
      by_cases htp : linkAt t node = 0
      · rw [if_pos htp]
        right
        right
        refine ⟨buf, rfl, ?_⟩
        intro nid hnid hnu hnterm hpk
        have hkon : keyOf t node = pathOf t node := by
          rw [keyOf, if_pos hleaf, htp, extractSuffix_zero t hw.tail0, List.append_nil]
        rcases Nat.lt_or_ge pos (pathOf t nid).length with hdeep | hshal
        · obtain ⟨a, ha1, ha2, ha3, -⟩ :=
            key_node_deep t d u hw p node pos hposlt hn hu2 hpath nid hnid hnterm hpk hdeep
          exact leaf_no_child t d u hw node a hn hu2 hleaf ha3
        · obtain ⟨hnn, hjeq, -⟩ := key_node_shallow t d u hw p node pos (by omega) hn hu2
            hpath nid hnid hnterm hpk hshal (by omega)
          rw [hnn, hkon] at hpk
          have hc := hpk.length_le
          rw [hpath, List.length_take] at hc
          omega
      · rw [if_neg htp]
        have hll := hw.leaf_link node hn hu2 hleaf htp
        have hterm : terminalAt t node = true := hw.leaf_term node hn hu2 hleaf
        have huniq : ∀ nid, nid < t.check.length → usedAt u nid = true →
            terminalAt t nid = true → p <+: keyOf t nid → nid = node := by
          intro nid hnid hnu hnterm hpk
          rcases Nat.lt_or_ge pos (pathOf t nid).length with hdeep | hshal
          · obtain ⟨a, ha1, ha2, ha3, -⟩ :=
              key_node_deep t d u hw p node pos hposlt hn hu2 hpath nid hnid hnterm hpk hdeep
            exact (leaf_no_child t d u hw node a hn hu2 hleaf ha3).elim
          · exact (key_node_shallow t d u hw p node pos (by omega) hn hu2 hpath nid hnid
              hnterm hpk hshal (by omega)).1
        have hkey : keyOf t node = p.take pos ++ extractSuffix t (linkAt t node) := by
          rw [keyOf, if_pos hleaf, hpath]
        have hprefiff : ∀ s : List Nat, (p <+: p.take pos ++ s ↔ p.drop pos <+: s) := by
          intro s
          constructor
          · intro h
            have h2 : p.take pos ++ p.drop pos <+: p.take pos ++ s := by
              rw [List.take_append_drop]
              exact h
            exact (List.prefix_append_right_inj _).mp h2
          · intro h
            have h2 := (List.prefix_append_right_inj (p.take pos)).mpr h
            rw [List.take_append_drop] at h2
            exact h2
        by_cases hbm : t.bin_mode = true
        · rw [if_pos hbm]
          have hbnd := hll.2.2 hbm
          have hext : extractSuffix t (linkAt t node) = decodeBin t (linkAt t node) := by
            rw [extractSuffix, if_pos hbm, if_pos htp]
          have hspec := predBinMatch_spec t p (p.length - pos) pos (linkAt t node) buf rfl
            hposlt hbnd
          by_cases heqd : p.drop pos = decodeBin t (linkAt t node)
          · rw [hspec.1 heqd]
            right
            left
            refine ⟨buf ++ p.drop pos, node, rfl, hn, hu2, hleaf, hterm, ?_, ?_, huniq⟩
            · rw [hbuf, hkey, hext, heqd]
            · rw [hbuf, List.take_append_drop]
          · by_cases hpre : p.drop pos <+: decodeBin t (linkAt t node)
            · obtain ⟨hres, hbnd3, hdecomp⟩ := hspec.2.1 hpre heqd
              rw [hres]
              right
              left
              refine ⟨(buf ++ p.drop pos) ++
                  extractSuffix t (linkAt t node + (p.length - pos)),
                node, rfl, hn, hu2, hleaf, hterm, ?_, ?_, huniq⟩
              · have hext2 : extractSuffix t (linkAt t node + (p.length - pos)) =
                    decodeBin t (linkAt t node + (p.length - pos)) := by
                  rw [extractSuffix, if_pos hbm, if_pos (by omega)]
                rw [hbuf, hkey, hext, hdecomp, hext2, List.append_assoc]
              · rw [hbuf, List.take_append_drop]
                exact List.prefix_append _ _
            · obtain ⟨b, hbf⟩ := hspec.2.2 hpre
              rw [hbf]
              right
              right
              refine ⟨b, rfl, ?_⟩
              intro nid hnid hnu hnterm hpk
              have hnn := huniq nid hnid hnu hnterm hpk
              rw [hnn, hkey, hext] at hpk
              exact hpre ((hprefiff _).mp hpk)
        · have hbm2 : t.bin_mode = false := by simpa using hbm
          rw [if_neg hbm]
          have hext : extractSuffix t (linkAt t node) = decodeText t (linkAt t node) := by
            rw [extractSuffix, if_neg hbm]
          have hspec := predTextMatch_spec t p (p.length - pos) pos (linkAt t node) buf rfl
            hposlt
          by_cases hpre : p.drop pos <+: decodeText t (linkAt t node)
          · rw [hspec.1 hpre]
            right
            left
            have hdecomp := decodeText_decomp t (p.drop pos) (linkAt t node) hpre
            refine ⟨(buf ++ p.drop pos) ++
                extractSuffix t (linkAt t node + (p.length - pos)),
              node, rfl, hn, hu2, hleaf, hterm, ?_, ?_, huniq⟩
            · have hext2 : extractSuffix t (linkAt t node + (p.length - pos)) =
                  decodeText t (linkAt t node + (p.length - pos)) := by
                rw [extractSuffix, if_neg hbm]
              have hlendrop : (p.drop pos).length = p.length - pos := List.length_drop _ _
              rw [hbuf, hkey, hext, hdecomp, hlendrop, hext2, List.append_assoc]
            · rw [hbuf, List.take_append_drop]
              exact List.prefix_append _ _
          · obtain ⟨b, hbf⟩ := hspec.2 hpre
            rw [hbf]
            right
            right
            refine ⟨b, rfl, ?_⟩
            intro nid hnid hnu hnterm hpk
            have hnn := huniq nid hnid hnu hnterm hpk
            rw [hnn, hkey, hext] at hpk
            exact hpre ((hprefiff _).mp hpk)
    · rw [if_neg hleaf]
      have hleaf2 : leafAt t node = false := by simpa using hleaf
      have hbmem : p.getD pos 0 ∈ t.alphabet := by
        apply hp
        rw [List.getD_eq_getElem p 0 hposlt]
        exact List.getElem_mem _
      by_cases hcheck : checkAt t (baseAt t node ^^^ code t (kbOf p pos)) = node
      · rw [if_pos hcheck]
        have hkb : kbOf p pos = p.getD pos 0 := rfl
        obtain ⟨hchN, hchU, hch0⟩ := child_facts t d u hw node _ hn hu2 hcheck
        have hchpath : pathOf t (baseAt t node ^^^ code t (kbOf p pos)) =
            p.take (pos + 1) := by
          rw [child_path t d u hw node (kbOf p pos) hn hu2 (by rw [hkb]; exact hbmem) hcheck,
            hpath, hkb, ← take_succ_getD p pos hposlt]
        have hbuf2 : buf ++ [kbOf p pos] = p.take (pos + 1) := by
          rw [hbuf, hkb, ← take_succ_getD p pos hposlt]
        exact ih (pos + 1) (baseAt t node ^^^ code t (kbOf p pos)) (buf ++ [kbOf p pos])
          (by omega) (by omega) hchN hchU hchpath hbuf2
      · rw [if_neg hcheck]
        right
        right
        refine ⟨buf, rfl, ?_⟩
        intro nid hnid hnu hnterm hpk
        rcases Nat.lt_or_ge pos (pathOf t nid).length with hdeep | hshal
        · obtain ⟨a, ha1, ha2, ha3, ha4⟩ :=
            key_node_deep t d u hw p node pos hposlt hn hu2 hpath nid hnid hnterm hpk hdeep
          obtain ⟨hmem, hedge_mem⟩ := child_mem_childrenOf t d u hw node a hn hu2 ha3
          obtain ⟨hea, haeq, hacheck⟩ := (mem_childrenOf t node (edge t node a, a)).mp hmem
          apply hcheck
          have h9 : kbOf p pos = edge t node a := by
            show p.getD pos 0 = edge t node a
            rw [ha4]
          have h10 : baseAt t node ^^^ code t (kbOf p pos) = a := by
            rw [h9, ← haeq]
          rw [h10]
          exact hacheck
        · obtain ⟨hnn, hjeq, hnleaf⟩ := key_node_shallow t d u hw p node pos (by omega) hn
            hu2 hpath nid hnid hnterm hpk hshal (by omega)
          rw [hnn] at hnleaf
          rw [hnleaf] at hleaf2
          simp at hleaf2

/-! ### Assembling the predictive search -/

theorem seed_chain (t : Trie) (d : List Nat) (u : List Bool) (hw : WFp t d u)
    (p : List Nat) (v : Nat) (hpne : p ≠ []) (hv : v < t.check.length)
    (hvu : usedAt u v = true) (hpath : pathOf t v = p) :
    StackChain t u [seedFrame p v] p := by
  have hlp : 0 < p.length := List.length_pos.mpr hpne
  have hok : FrameOK t u (seedFrame p v) := by
    refine ⟨hlp, hv, hvu, ?_, ?_⟩
    · show p.length = (pathOf t v).length
      rw [hpath]
    · show pathOf t v = (pathOf t v).take (p.length - 1) ++ [p.getLastD 0]
      rw [hpath]
      exact take_getLastD p hpne
  refine ⟨hok, ?_, trivial⟩
  show (pathOf t v).take (p.length - 1) <+: p
  rw [hpath]
  exact List.take_prefix _ _

theorem seed_out_props (t : Trie) (d : List Nat) (u : List Bool) (hw : WFp t d u)
    (p : List Nat) (v : Nat) (hv : v < t.check.length) (hvu : usedAt u v = true)
    (hpath : pathOf t v = p) :
    ((subtreeSeqF t t.check.length v (pathOf t v)).map Prod.fst).Pairwise lexLt ∧
    (∀ k, k ∈ (subtreeSeqF t t.check.length v (pathOf t v)).map Prod.fst ↔
      k ∈ keysOf t ∧ p <+: k) ∧
    ∀ q ∈ subtreeSeqF t t.check.length v (pathOf t v),
      q.2 < t.num_keys ∧ q.1 = access t q.2 := by
  have hfuel : t.check.length - dAt d v ≤ t.check.length := by omega
  refine ⟨subtreeSeq_sorted t d u hw t.check.length v hv hvu hfuel, ?_, ?_⟩
  · intro k
    constructor
    · intro hk
      rw [List.mem_map] at hk
      obtain ⟨q, hq, hq2⟩ := hk
      obtain ⟨nid, h1, h2, h3, h4, h5⟩ :=
        subtreeSeq_sound t d u hw t.check.length v hv hvu hfuel q hq
      constructor
      · rw [mem_keysOf t d u hw]
        refine ⟨nid, h1, h2, h3, ?_⟩
        rw [← hq2, h5]
      · rw [← hq2, h5]
        have h6 : p <+: pathOf t nid := by
          rw [← hpath]
          exact h4
        exact h6.trans (path_prefix_keyOf t nid)
    · rintro ⟨hkin, hpk⟩
      rw [mem_keysOf t d u hw] at hkin
      obtain ⟨nid, h1, h2, h3, hkeq⟩ := hkin
      subst hkeq
      have hpref : pathOf t v <+: pathOf t nid := by
        rcases Nat.lt_or_ge (pathOf t nid).length p.length with hlt | hge
        · obtain ⟨hnn, hjeq, -⟩ := key_node_shallow t d u hw p v p.length (le_refl _) hv hvu
            (by rw [hpath, List.take_length]) nid h1 h3 hpk (by omega) hlt
          omega
        · rw [hpath]
          exact List.prefix_of_prefix_length_le hpk (path_prefix_keyOf t nid) hge
      have hmem := subtreeSeq_complete t d u hw t.check.length v hv hvu hfuel nid h1 h2 h3
        hpref
      rw [List.mem_map]
      exact ⟨(keyOf t nid, toKeyId t nid), hmem, rfl⟩
  · intro q hq
    obtain ⟨nid, h1, h2, h3, h4, h5⟩ :=
      subtreeSeq_sound t d u hw t.check.length v hv hvu hfuel q hq
    obtain ⟨hlt, hacc⟩ := keyOf_access t d u hw nid h1 h3
    subst h5
    exact ⟨hlt, hacc.symm⟩

theorem runPred_of_loop (t : Trie) (d : List Nat) (u : List Bool) (hw : WFp t d u)
    (kb : Nat → Nat) (len : Nat) (F : Nat) (st : PredSt)
    (stack : List (Nat × Nat × Nat)) (buf : List Nat) (idv : Nat)
    (hnext : nextPredictive t kb len F st = predLoop t F stack buf idv)
    (hchain : StackChain t u stack buf) (hwt : stackWeight t stack + 1 < F) :
    runPredF t kb len (F + 1) st = some (stackSpec t stack) := by
  have hps := predLoop_spec t d u hw F stack buf idv hchain (by omega)
  cases hsp : stackSpec t stack with
  | nil =>
    obtain ⟨st2, h1⟩ := hps.1 hsp
    simp only [runPredF, hnext, h1, hsp]
  | cons q qs =>
    obtain ⟨st2, h1, h2, h3, h4, h5, h6, h7, h8⟩ := hps.2 q qs hsp
    have hrec := runLoop_spec t d u hw kb len F st2 h2 h3 h6 (by omega)
    simp only [runPredF, hnext, h1, hrec, h7, h4, h5]

theorem runPredF_succ (t : Trie) (kb : Nat → Nat) (len fuel : Nat) (st : PredSt) :
    runPredF t kb len (fuel + 1) st =
      match nextPredictive t kb len fuel st with
      | none => none
      | some (false, _) => some []
      | some (true, st2) =>
        match runPredF t kb len fuel st2 with
        | none => none
        | some l => some ((st2.buf, st2.idv) :: l) := rfl

theorem runPred_root (t : Trie) (d : List Nat) (u : List Bool) (hw : WFp t d u)
    (kb : Nat → Nat) (len : Nat)
    (hdesc : predDescendF t kb len len 0 0 [] = .seed [] 0) :
    ∃ F, runPredF t kb len F PredSt.init =
      some (subtreeSeqF t t.check.length 0 (pathOf t 0)) := by
  obtain ⟨S, hS⟩ : ∃ S, subtreeSizeF t t.check.length 0 = S := ⟨_, rfl⟩
  refine ⟨S + 1 + 1 + 1, ?_⟩
  have hb0 : bufAdj ([] : List Nat) 0 0 = [] := by
    rw [bufAdj, if_neg (Nat.lt_irrefl 0)]
  have hpz := pathOf_zero t d u hw
  have hchain2 : StackChain t u (pushChildren t 0 0 []) [] := by
    have h := StackChain_push t d u hw 0 0 [] hw.n_pos hw.root_used
      (by rw [hpz]; rfl) (by rw [hpz]; exact trivial)
    rw [hpz] at h
    exact h
  have hwt2 : stackWeight t (pushChildren t 0 0 []) + 1 = S := by
    have h := stackWeight_push t d u hw 0 0 [] hw.n_pos hw.root_used hw.root_not_leaf
    simpa [stackWeight, hS] using h
  have hframe : frameSpec t ((0 : Nat), (0 : Nat), (0 : Nat)) =
      subtreeSeqF t t.check.length 0 (pathOf t 0) := rfl
  have hloop1 : ∀ W2, predLoop t (W2 + 1) [((0 : Nat), (0 : Nat), (0 : Nat))] [] 0 =
      if terminalAt t 0 then
        some (true, ⟨false, false, pushChildren t 0 0 [], [], toKeyId t 0⟩)
      else predLoop t W2 (pushChildren t 0 0 []) [] 0 := by
    intro W2
    simp only [predLoop, hb0, hw.root_not_leaf, Bool.false_eq_true, if_false]
  have hnext : nextPredictive t kb len (S + 1 + 1) PredSt.init =
      predLoop t (S + 1 + 1) [((0 : Nat), (0 : Nat), (0 : Nat))] [] 0 := by
    simp [nextPredictive, PredSt.init, hdesc, seedFrame]
  by_cases hterm0 : terminalAt t 0 = true
  · have hps2 : runPredF t kb len (S + 1 + 1)
        ⟨false, false, pushChildren t 0 0 [], [], toKeyId t 0⟩ =
        some (stackSpec t (pushChildren t 0 0 [])) := by
      apply runLoop_spec t d u hw kb len (S + 1 + 1) _ rfl rfl hchain2
      show stackWeight t (pushChildren t 0 0 []) + 1 < S + 1 + 1
      omega
    have hout : subtreeSeqF t t.check.length 0 (pathOf t 0) =
        ([], toKeyId t 0) :: stackSpec t (pushChildren t 0 0 []) := by
      rw [← hframe, frameSpec_nonleaf t d u hw (0, 0, 0) hw.n_pos hw.root_used
        hw.root_not_leaf, if_pos hterm0, stackSpec_push, hpz]
      simp [stackSpec]
    rw [hout]
    rw [runPredF_succ, hnext, hloop1 (S + 1), if_pos hterm0]
    simp only [hps2]
  · have hps := predLoop_spec t d u hw (S + 1) (pushChildren t 0 0 []) [] 0 hchain2
      (by omega)
    have hout : subtreeSeqF t t.check.length 0 (pathOf t 0) =
        stackSpec t (pushChildren t 0 0 []) := by
      rw [← hframe, frameSpec_nonleaf t d u hw (0, 0, 0) hw.n_pos hw.root_used
        hw.root_not_leaf, if_neg hterm0, stackSpec_push]
      simp [stackSpec]
    rw [hout]
    cases hsp : stackSpec t (pushChildren t 0 0 []) with
    | nil =>
      obtain ⟨st2, h1⟩ := hps.1 hsp
      rw [runPredF_succ, hnext, hloop1 (S + 1), if_neg hterm0]
      simp only [h1]
    | cons q qs =>
      obtain ⟨st2, h1, h2, h3, h4, h5, h6, h7, h8⟩ := hps.2 q qs hsp
      have hrec := runLoop_spec t d u hw kb len (S + 1 + 1) st2 h2 h3 h6 (by omega)
      rw [runPredF_succ, hnext, hloop1 (S + 1), if_neg hterm0]
      simp only [h1, hrec, h7, h4, h5]

/-- C2 amended: on a well-formed trie (see `WFp`), for every input byte
string `p` made of alphabet bytes, driving a fresh PredictiveIterator to
exhaustion succeeds within a bounded number of `next()` calls and yields
pairs whose keys are strictly increasing in lexicographic byte order
(hence pairwise distinct), which are exactly the registered keys having
`p` as a prefix, each paired with its id (`key() = access(id())`).  (For a
byte of `p` outside the alphabet the claim fails: the zero-initialized
code table aliases such bytes to the smallest alphabet byte, and keys not
extending `p` can be yielded — see the counterexample.) -/
theorem c2_amended (t : Trie) (hw : WellFormed t) (p : List Nat)
    (hp : ∀ b ∈ p, b ∈ t.alphabet) :
    ∃ F out, runPredF t (kbOf p) p.length F PredSt.init = some out ∧
      (out.map Prod.fst).Pairwise lexLt ∧
      (∀ k, k ∈ out.map Prod.fst ↔ k ∈ keysOf t ∧ p <+: k) ∧
      ∀ q ∈ out, q.2 < t.num_keys ∧ q.1 = access t q.2 := by
  obtain ⟨d, u, hwp⟩ := hw
  have hdesc_all := predDescend_spec t d u hwp p hp p.length 0 0 [] (by omega) (by omega)
    hwp.n_pos hwp.root_used (by rw [pathOf_zero t d u hwp]; rfl) rfl
  rcases hdesc_all with ⟨v, heq, hv1, hv2, hv3⟩ |
    ⟨bufK, L, heq, hL1, hL2, hL3, hL4, hkeq, hpk, huniq⟩ | ⟨b, heq, hnone⟩
  · by_cases hpne : p = []
    · subst hpne
      have hv0 : v = 0 := by
        apply pathOf_inj t d u hwp (dAt d v) v 0 (le_refl _) hv1 hwp.n_pos hv2 hwp.root_used
        rw [hv3, pathOf_zero t d u hwp]
      subst hv0
      obtain ⟨F, hF⟩ := runPred_root t d u hwp (kbOf []) (List.length ([] : List Nat)) heq
      refine ⟨F, subtreeSeqF t t.check.length 0 (pathOf t 0), hF, ?_⟩
      exact seed_out_props t d u hwp [] 0 hwp.n_pos hwp.root_used (pathOf_zero t d u hwp)
    · obtain ⟨S, hS⟩ : ∃ S, subtreeSizeF t t.check.length v = S := ⟨_, rfl⟩
      have hnext : nextPredictive t (kbOf p) p.length (S + 1 + 1) PredSt.init =
          predLoop t (S + 1 + 1) [seedFrame p v] p 0 := by
        simp [nextPredictive, PredSt.init, heq]
      have hchain := seed_chain t d u hwp p v hpne hv1 hv2 hv3
      have hwt : stackWeight t [seedFrame p v] + 1 < S + 1 + 1 := by
        have h9 : stackWeight t [seedFrame p v] = subtreeSizeF t t.check.length v := by
          simp [stackWeight, seedFrame]
        omega
      have hrun := runPred_of_loop t d u hwp (kbOf p) p.length (S + 1 + 1) PredSt.init
        [seedFrame p v] p 0 hnext hchain hwt
      have hsspec : stackSpec t [seedFrame p v] =
          subtreeSeqF t t.check.length v (pathOf t v) := by
        simp [stackSpec, frameSpec, seedFrame]
      refine ⟨S + 1 + 1 + 1, subtreeSeqF t t.check.length v (pathOf t v), ?_, ?_⟩
      · rw [hrun, hsspec]
      · exact seed_out_props t d u hwp p v hv1 hv2 hv3
  · refine ⟨0 + 1 + 1, [(bufK, toKeyId t L)], ?_, ?_, ?_, ?_⟩
    · have hn1 : nextPredictive t (kbOf p) p.length (0 + 1) PredSt.init =
          some (true, ⟨false, true, [], bufK, toKeyId t L⟩) := by
        simp [nextPredictive, PredSt.init, heq]
      have hn2 : runPredF t (kbOf p) p.length (0 + 1)
          (⟨false, true, [], bufK, toKeyId t L⟩ : PredSt) = some [] := by
        rw [runPredF_succ]
        simp [nextPredictive]
      rw [runPredF_succ, hn1]
      simp only [hn2]
    · simp [lexLt]
    · intro k
      simp only [List.map_cons, List.map_nil, List.mem_singleton]
      constructor
      · intro hk
        subst hk
        constructor
        · rw [mem_keysOf t d u hwp]
          exact ⟨L, hL1, hL2, hL4, hkeq⟩
        · exact hpk
      · rintro ⟨hkin, hpk2⟩
        rw [mem_keysOf t d u hwp] at hkin
        obtain ⟨nid, h1, h2, h3, hkeq2⟩ := hkin
        have h4 := huniq nid h1 h2 h3 (by rw [← hkeq2]; exact hpk2)
        rw [hkeq2, h4, ← hkeq]
    · intro q hq
      rw [List.mem_singleton] at hq
      subst hq
      obtain ⟨hlt, hacc⟩ := keyOf_access t d u hwp L hL1 hL4
      refine ⟨hlt, ?_⟩
      show bufK = access t (toKeyId t L)
      rw [hkeq]
      exact hacc.symm
  · refine ⟨0 + 1 + 1, [], ?_, by simp, ?_, by simp⟩
    · simp [runPredF, nextPredictive, PredSt.init, heq]
    · intro k
      constructor
      · intro hk
        simp at hk
      · rintro ⟨hkin, hpk2⟩
        exfalso
        rw [mem_keysOf t d u hwp] at hkin
        obtain ⟨nid, h1, h2, h3, hkeq2⟩ := hkin
        exact hnone nid h1 h2 h3 (by rw [← hkeq2]; exact hpk2)

/-- C2 as stated is false for inputs holding a byte outside the trie's
alphabet: the zero-initialized code table maps any such byte to code 0,
the code of the smallest alphabet byte, so the descent of
`next_predictive_` follows that aliased edge.  On the well-formed one-key
dictionary `{"a"}`, the iterator for `"z"` yields the pair `("z", 0)` —
`"z"` is not a registered key at all (and the registered key `"a"` is not
an extension of `"z"`), contradicting "yields exactly the registered keys
that have p as a prefix". -/
theorem c2_counterexample :
    WellFormed trieA ∧
    runPredF trieA (kbOf [122]) 1 4 PredSt.init = some [([122], 0)] ∧
    [122] ∉ keysOf trieA :=
  ⟨⟨[0, 1], [true, true], by constructor <;> decide⟩, by decide, by decide⟩

theorem c2_witness :
    WellFormed trieAabc ∧ (∀ b ∈ [97], b ∈ trieAabc.alphabet) ∧
    (∃ F out,
      runPredF trieAabc (kbOf [97]) ([97] : List Nat).length F PredSt.init = some out ∧
      (out.map Prod.fst).Pairwise lexLt ∧
      (∀ k, k ∈ out.map Prod.fst ↔ k ∈ keysOf trieAabc ∧ [97] <+: k) ∧
      ∀ q ∈ out, q.2 < trieAabc.num_keys ∧ q.1 = access trieAabc q.2) :=
  ⟨⟨[0, 1, 2], [true, true, true], by constructor <;> decide⟩, by decide,
    c2_amended trieAabc ⟨[0, 1, 2], [true, true, true], by constructor <;> decide⟩ [97]
      (by decide)⟩

end Xcdat
